import Mathlib

/-!
Verification of the caching subsystem of the SKB Visualization repository
(`src/utils/cache.py` and the split package `src/utils/cache/`; the two are
line-for-line duplicates of the same classes, so a single model covers both).

The embedding models:
  - Python values passed as arguments and cached results (`PyVal`);
  - `CacheManager.generate_key` : numpy `tolist` conversion of top-level
    array arguments, `json.dumps(..., sort_keys=True, default=str)`, and a
    fixed digest of the serialized string (the digest is a parameter of the
    model, kept abstract as an arbitrary string function; the source
    instantiates it with the MD5 hex digest, which the model treats as an
    injective coding when a theorem needs collision-freedom);
  - `MemoryCache` : the in-memory backend with its `_cache` and
    `_access_times` dicts merged into one insertion-ordered association
    list (under the public API the two dicts always hold exactly the same
    keys in the same insertion order, so this is an equivalent state);
    `time.time()` is modelled by an integer instant passed to each
    operation; a raised exception is modelled by `Option.none`;
  - `CacheManager.cached_computation` : the memoizing wrapper, with the
    wrapped function modelled as a state-passing function so that the
    number of times it executes is observable;
  - the global registry (`core.py`) and the per-computation-kind
    decorators of both `cache/decorators.py` and monolithic `cache.py`.
-/

/-! ## Python values

Python values that can appear as arguments or cached results.  `obj` stands
for a value of a type `json` cannot serialize natively; its field is the
string `str()` returns for it (the `default=str` fallback of the source).
`ndarray` is a numpy array, carried as the nested-list value its `tolist()`
returns.  Mutual (rather than nested) inductives keep every function below
structurally recursive, hence kernel-reducible. -/

mutual

inductive PyVal where
  | none : PyVal
  | pybool (b : Bool) : PyVal
  | pyint (n : Int) : PyVal
  | pystr (s : String) : PyVal
  | pylist (xs : PyList) : PyVal
  | pytuple (xs : PyList) : PyVal
  | pydict (fs : PyDict) : PyVal
  | ndarray (xs : PyList) : PyVal
  | obj (srepr : String) : PyVal
deriving DecidableEq

inductive PyList where
  | nil : PyList
  | cons (hd : PyVal) (tl : PyList) : PyList
deriving DecidableEq

inductive PyDict where
  | nil : PyDict
  | cons (k : String) (v : PyVal) (tl : PyDict) : PyDict
deriving DecidableEq

end

def PyList.ofList : List PyVal → PyList
  | [] => PyList.nil
  | v :: vs => PyList.cons v (PyList.ofList vs)

def PyDict.ofList : List (String × PyVal) → PyDict
  | [] => PyDict.nil
  | (k, v) :: fs => PyDict.cons k v (PyDict.ofList fs)

def PyDict.keys : PyDict → List String
  | PyDict.nil => []
  | PyDict.cons k _ fs => k :: PyDict.keys fs

/-! ## JSON trees

The shape `json.dumps` serializes: attribute order of objects is the order
the encoder receives the fields in (for the source, sorted by key). -/

mutual

inductive JVal where
  | null : JVal
  | jbool (b : Bool) : JVal
  | jint (n : Int) : JVal
  | jstr (s : String) : JVal
  | jarr (xs : JArr) : JVal
  | jobj (fs : JObj) : JVal
deriving DecidableEq

inductive JArr where
  | anil : JArr
  | acons (hd : JVal) (tl : JArr) : JArr
deriving DecidableEq

inductive JObj where
  | onil : JObj
  | ocons (k : String) (v : JVal) (tl : JObj) : JObj
deriving DecidableEq

end

def JObj.ofList : List (String × JVal) → JObj
  | [] => JObj.onil
  | (k, v) :: fs => JObj.ocons k v (JObj.ofList fs)

/-! ## Rendering a JSON tree to characters

This mirrors `json.dumps` with default separators: elements joined by
a comma and a space, keys and values joined by a colon and a space,
integers in decimal, strings quoted with backslash escapes for the quote
and backslash characters (the model covers strings of printable ASCII;
`json.dumps` additionally escapes control and non-ASCII characters). -/

def digitChar : Nat → Char
  | 0 => '0' | 1 => '1' | 2 => '2' | 3 => '3' | 4 => '4'
  | 5 => '5' | 6 => '6' | 7 => '7' | 8 => '8' | _ => '9'

/-- Decimal digits of a natural number, most significant first; the first
argument is recursion fuel (any value above the number works). -/
def natCharsAux : Nat → Nat → List Char
  | 0, _ => []
  | fuel + 1, n =>
    if n < 10 then [digitChar n]
    else natCharsAux fuel (n / 10) ++ [digitChar (n % 10)]

def natChars (n : Nat) : List Char := natCharsAux (n + 1) n

def intChars (i : Int) : List Char :=
  if i < 0 then '-' :: natChars i.natAbs else natChars i.natAbs

/-- Backslash escape of one character inside a JSON string literal. -/
def escChar (c : Char) : List Char :=
  if c = '"' ∨ c = '\\' then ['\\', c] else [c]

def escChars : List Char → List Char
  | [] => []
  | c :: cs => escChar c ++ escChars cs

mutual

def emit : JVal → List Char
  | JVal.null => ['n', 'u', 'l', 'l']
  | JVal.jbool true => ['t', 'r', 'u', 'e']
  | JVal.jbool false => ['f', 'a', 'l', 's', 'e']
  | JVal.jint n => intChars n
  | JVal.jstr s => '"' :: (escChars s.data ++ ['"'])
  | JVal.jarr xs => '[' :: (emitArr xs ++ [']'])
  | JVal.jobj fs => '{' :: (emitObj fs ++ ['}'])

def emitArr : JArr → List Char
  | JArr.anil => []
  | JArr.acons x JArr.anil => emit x
  | JArr.acons x (JArr.acons y tl) =>
      emit x ++ (',' :: ' ' :: emitArr (JArr.acons y tl))

def emitObj : JObj → List Char
  | JObj.onil => []
  | JObj.ocons k v JObj.onil =>
      '"' :: (escChars k.data ++ ('"' :: ':' :: ' ' :: emit v))
  | JObj.ocons k v (JObj.ocons k2 v2 tl) =>
      ('"' :: (escChars k.data ++ ('"' :: ':' :: ' ' :: emit v))) ++
        (',' :: ' ' :: emitObj (JObj.ocons k2 v2 tl))

end

/-- One `"key": value` member of a rendered object. -/
def emitField (k : String) (v : JVal) : List Char :=
  '"' :: (escChars k.data ++ ('"' :: ':' :: ' ' :: emit v))

theorem emitObj_eq_field : ∀ (k : String) (v : JVal) (tl : JObj),
    emitObj (JObj.ocons k v tl) =
      emitField k v ++
        (match tl with
         | JObj.onil => []
         | JObj.ocons _ _ _ => ',' :: ' ' :: emitObj tl) := by
  intro k v tl
  cases tl with
  | onil => simp [emitObj, emitField]
  | ocons k2 v2 tl2 => simp [emitObj, emitField]

/-! ## Sorting object fields by key

Python compares strings code point by code point; `sorted(d.items())` on a
dict compares the (distinct) keys. -/

def charsLtb : List Char → List Char → Bool
  | [], [] => false
  | [], _ :: _ => true
  | _ :: _, [] => false
  | c :: cs, d :: ds => if c = d then charsLtb cs ds else decide (c.toNat < d.toNat)

def strLtb (s t : String) : Bool := charsLtb s.data t.data

def insPair (p : String × JVal) : List (String × JVal) → List (String × JVal)
  | [] => [p]
  | q :: qs => if strLtb q.1 p.1 then q :: insPair p qs else p :: q :: qs

def sortPairs (l : List (String × JVal)) : List (String × JVal) :=
  l.foldr insPair []

/-! ## Canonicalization: Python value to serialized JSON tree

`canon` is exactly what `json.dumps(..., sort_keys=True, default=str)`
serializes: lists and tuples both become arrays, dict fields are sorted by
key, unsupported objects go through `str()`.  A nested `ndarray` (one not
converted by `generate_key`, which converts only top-level arguments) is
mapped to the array of its elements; no theorem below depends on this case:
the supported-shape predicates exclude nested arrays. -/

mutual

def canon : PyVal → JVal
  | PyVal.none => JVal.null
  | PyVal.pybool b => JVal.jbool b
  | PyVal.pyint n => JVal.jint n
  | PyVal.pystr s => JVal.jstr s
  | PyVal.pylist xs => JVal.jarr (canonList xs)
  | PyVal.pytuple xs => JVal.jarr (canonList xs)
  | PyVal.pydict fs => JVal.jobj (JObj.ofList (sortPairs (canonPairs fs)))
  | PyVal.ndarray xs => JVal.jarr (canonList xs)
  | PyVal.obj r => JVal.jstr r

def canonList : PyList → JArr
  | PyList.nil => JArr.anil
  | PyList.cons x xs => JArr.acons (canon x) (canonList xs)

def canonPairs : PyDict → List (String × JVal)
  | PyDict.nil => []
  | PyDict.cons k v fs => (k, canon v) :: canonPairs fs

end

/-! ## Key generation (`CacheManager.generate_key`) -/

/-- Top-level numpy arrays are converted to lists before serialization
(`if isinstance(arg, np.ndarray): arg.tolist()`); everything else passes
through unchanged. -/
def tolistify : PyVal → PyVal
  | PyVal.ndarray xs => PyVal.pylist xs
  | v => v

def tolistifyList : PyList → PyList
  | PyList.nil => PyList.nil
  | PyList.cons x xs => PyList.cons (tolistify x) (tolistifyList xs)

def tolistifyDict : PyDict → PyDict
  | PyDict.nil => PyDict.nil
  | PyDict.cons k v fs => PyDict.cons k (tolistify v) (tolistifyDict fs)

/-- The dictionary the source serializes: positional arguments under
"args", keyword arguments under "kwargs". -/
def cacheKeyVal (args : PyList) (kwargs : PyDict) : PyVal :=
  PyVal.pydict
    (PyDict.cons "args" (PyVal.pylist (tolistifyList args))
      (PyDict.cons "kwargs" (PyVal.pydict (tolistifyDict kwargs)) PyDict.nil))

def canonKey (args : PyList) (kwargs : PyDict) : JVal :=
  canon (cacheKeyVal args kwargs)

def cache_string (args : PyList) (kwargs : PyDict) : String :=
  String.mk (emit (canonKey args kwargs))

/-- Model of `CacheManager.generate_key`.  `hash` stands for the MD5 hex
digest of the serialized argument string. -/
def generate_key (hash : String → String) (key_pfx : String)
    (args : PyList) (kwargs : PyDict) : String :=
  key_pfx ++ ":" ++ hash (cache_string args kwargs)

/-! ## The in-memory backend (`MemoryCache`)

One entry of the backend: the `value`/`timestamp`/`ttl` dict stored in
`self._cache[key]` together with `self._access_times[key]`.  Under the
public API the two dicts always hold the same keys in the same insertion
order, so the state is one insertion-ordered association list.  Instants
are integers; each public operation receives the value `time.time()`
returns during it.  An operation that raises returns `Option.none`. -/

structure CEntry where
  value : PyVal
  timestamp : Int
  ttl : Option Int
  access : Int
deriving DecidableEq

structure MemoryCache where
  max_size : Nat
  default_ttl : Int
  entries : List (String × CEntry)
deriving DecidableEq

/-- Lookup in an insertion-ordered dict. -/
def lookupEntry : List (String × CEntry) → String → Option CEntry
  | [], _ => Option.none
  | (k, e) :: rest, key => if k = key then some e else lookupEntry rest key

/-- Dict assignment: overwrite in place if the key is present, else append
(Python dicts preserve insertion order and keep the position of an updated
key). -/
def updateEntry : List (String × CEntry) → String → CEntry → List (String × CEntry)
  | [], key, e => [(key, e)]
  | (k, e0) :: rest, key, e =>
    if k = key then (k, e) :: rest else (k, e0) :: updateEntry rest key e

/-- Dict `pop(key, None)`: drop the binding of `key`, if any. -/
def removeEntry : List (String × CEntry) → String → List (String × CEntry)
  | [], _ => []
  | (k, e) :: rest, key =>
    if k = key then rest else (k, e) :: removeEntry rest key

/-- The key with the smallest access time, earliest bound first on ties
(`min` over `self._access_times.keys()` scans insertion order and keeps
the first minimum); `Option.none` on an empty dict (`min` raises
`ValueError`). -/
def minAccessKey : List (String × CEntry) → Option (String × Int)
  | [] => Option.none
  | (k, e) :: rest =>
    match minAccessKey rest with
    | Option.none => some (k, e.access)
    | some (k2, a2) => if e.access ≤ a2 then some (k, e.access) else some (k2, a2)

/-- Model of `MemoryCache._is_expired`: strictly later than
`timestamp + ttl` counts as expired; a `None` ttl never expires. -/
def MemoryCache.is_expired (item : CEntry) (now : Int) : Bool :=
  match item.ttl with
  | Option.none => false
  | some t => decide (now > item.timestamp + t)

def MemoryCache.delete (c : MemoryCache) (key : String) : MemoryCache :=
  { c with entries := removeEntry c.entries key }

/-- Model of `MemoryCache.get`: a miss and a stored Python `None` are the
same return value, exactly as in the source.  An expired entry is deleted
and reported as a miss; a live hit refreshes the access time. -/
def MemoryCache.get (c : MemoryCache) (key : String) (now : Int) :
    MemoryCache × PyVal :=
  match lookupEntry c.entries key with
  | Option.none => (c, PyVal.none)
  | some item =>
    if MemoryCache.is_expired item now then (c.delete key, PyVal.none)
    else ({ c with entries := updateEntry c.entries key { item with access := now } },
          item.value)

/-- Model of `MemoryCache._evict_if_needed`: when the cache already holds
`max_size` or more entries, delete the least-recently-accessed one;
`Option.none` models the `ValueError` of `min` over an empty dict. -/
def MemoryCache.evict_if_needed (c : MemoryCache) : Option MemoryCache :=
  if c.entries.length ≥ c.max_size then
    match minAccessKey c.entries with
    | Option.none => Option.none
    | some (k, _) => some (c.delete k)
  else some c

/-- Python `ttl or self.default_ttl`: `None` and `0` are falsy and select
the default; every other value, including a negative one, is kept. -/
def pyOrTtl (ttl : Option Int) (d : Int) : Int :=
  match ttl with
  | Option.none => d
  | some t => if t = 0 then d else t

/-- Model of `MemoryCache.set`: evict if needed, then store the entry with
the resolved ttl and the current instant as both timestamp and access
time. -/
def MemoryCache.set (c : MemoryCache) (key : String) (value : PyVal)
    (ttl : Option Int) (now : Int) : Option MemoryCache :=
  match c.evict_if_needed with
  | Option.none => Option.none
  | some c2 =>
    some { c2 with
      entries := updateEntry c2.entries key
        { value := value, timestamp := now, ttl := some (pyOrTtl ttl c.default_ttl),
          access := now } }

/-- Model of `MemoryCache.exists`: like `get` it reaps an expired entry,
but it does not refresh the access time. -/
def MemoryCache.exists (c : MemoryCache) (key : String) (now : Int) :
    MemoryCache × Bool :=
  match lookupEntry c.entries key with
  | Option.none => (c, false)
  | some item =>
    if MemoryCache.is_expired item now then (c.delete key, false) else (c, true)

def MemoryCache.size (c : MemoryCache) : Nat := c.entries.length

/-- A fresh backend, as constructed by `MemoryCache(max_size, default_ttl)`. -/
def mkMemoryCache (max_size : Nat) (default_ttl : Int) : MemoryCache :=
  { max_size := max_size, default_ttl := default_ttl, entries := [] }

/-- Convenience for traces: run `set` and keep the old state if it raised
(used only to phrase concrete counterexample runs; every step of such a
run is separately asserted not to raise). -/
def MemoryCache.setD (c : MemoryCache) (key : String) (value : PyVal)
    (ttl : Option Int) (now : Int) : MemoryCache :=
  (c.set key value ttl now).getD c

/-! ## The cache manager (`CacheManager`) -/

structure CacheManager where
  backend : MemoryCache
  hit_count : Nat
  miss_count : Nat
  total_requests : Nat
deriving DecidableEq

def mkCacheManager (backend : MemoryCache) : CacheManager :=
  { backend := backend, hit_count := 0, miss_count := 0, total_requests := 0 }

structure CacheStats where
  total_requests : Nat
  hits : Nat
  misses : Nat
  hit_rate : Rat
deriving DecidableEq

/-- Model of `CacheManager.get_stats`. -/
def CacheManager.get_stats (m : CacheManager) : CacheStats :=
  { total_requests := m.total_requests, hits := m.hit_count, misses := m.miss_count,
    hit_rate := if m.total_requests = 0 then 0
                else (m.hit_count : Rat) / (m.total_requests : Rat) }

/-- Positional and keyword arguments of one wrapped call. -/
abbrev PyArgs : Type := PyList × PyDict

/-- Model of one call of the wrapper produced by
`CacheManager.cached_computation(key_pfx, ttl, use_cache)` applied to
`func`.  The wrapped function is state-passing (state type `σ`) so that
executions are observable; a pure function is one whose result component
ignores the state.  Mirrors the source line by line: `total_requests` is
incremented before the `use_cache` test; a miss stores the computed result
and a raising `backend.set` is swallowed. -/
def cachedComputation {σ : Type} (m : CacheManager) (key_pfx : String)
    (ttl : Option Int) (use_cache : Bool) (hash : String → String)
    (func : σ → PyArgs → σ × PyVal) (s : σ) (args : PyArgs) (now : Int) :
    CacheManager × σ × PyVal :=
  let m1 : CacheManager := { m with total_requests := m.total_requests + 1 }
  if use_cache = false then
    let r := func s args
    (m1, r.1, r.2)
  else
    let key := generate_key hash key_pfx args.1 args.2
    let g := MemoryCache.get m1.backend key now
    if g.2 = PyVal.none then
      -- cache miss (or a stored Python None, indistinguishable from one)
      let m2 : CacheManager :=
        { m1 with backend := g.1, miss_count := m1.miss_count + 1 }
      let r := func s args
      match MemoryCache.set m2.backend key r.2 ttl now with
      | some b2 => ({ m2 with backend := b2 }, r.1, r.2)
      | Option.none => (m2, r.1, r.2)
    else
      ({ m1 with backend := g.1, hit_count := m1.hit_count + 1 }, s, g.2)

/-- A sequence of wrapped calls; each element gives the instant of the call
and its arguments.  Returns the final manager, the final state of the
wrapped function, and the list of results. -/
def cachedCallSeq {σ : Type} (key_pfx : String) (ttl : Option Int)
    (use_cache : Bool) (hash : String → String)
    (func : σ → PyArgs → σ × PyVal) :
    List (Int × PyArgs) → CacheManager → σ → CacheManager × σ × List PyVal
  | [], m, s => (m, s, [])
  | (now, args) :: rest, m, s =>
    let r1 := cachedComputation m key_pfx ttl use_cache hash func s args now
    let r2 := cachedCallSeq key_pfx ttl use_cache hash func rest r1.1 r1.2.1
    (r2.1, r2.2.1, r1.2.2 :: r2.2.2)

/-- A pure wrapped function instrumented with an execution counter: the
state counts executions, the result is a function of the arguments only. -/
def countingFn (f : PyArgs → PyVal) : Nat → PyArgs → Nat × PyVal :=
  fun n a => (n + 1, f a)

/-! ## The global registry and the convenience decorators -/

/-- Model of `get_cache_manager` (`cache/core.py` and `cache.py`): the
module-level global is `Option CacheManager`; the error is the
`RuntimeError` raised when it was never initialized. -/
def get_cache_manager (reg : Option CacheManager) : Except String CacheManager :=
  match reg with
  | Option.none =>
      Except.error "Cache manager not initialized. Call initialize_cache() first."
  | some m => Except.ok m

/-- Model of one call of a function wrapped by a per-computation-kind
decorator of `cache/decorators.py`: the wrapper fetches the registry at
call time inside `try`, and on the `RuntimeError` of an uninitialized
registry calls the function directly. -/
def decoratorsKindCall {σ : Type} (kind : String) (ttl : Option Int)
    (hash : String → String) (func : σ → PyArgs → σ × PyVal)
    (reg : Option CacheManager) (s : σ) (args : PyArgs) (now : Int) :
    Option CacheManager × σ × PyVal :=
  match get_cache_manager reg with
  | Except.error _ =>
      let r := func s args
      (reg, r.1, r.2)
  | Except.ok m =>
      let r := cachedComputation m kind ttl true hash func s args now
      (some r.1, r.2.1, r.2.2)

def decorators_cached_klein_bottle {σ : Type} :
    Option Int → (String → String) → (σ → PyArgs → σ × PyVal) →
    Option CacheManager → σ → PyArgs → Int → Option CacheManager × σ × PyVal :=
  fun ttl => decoratorsKindCall "klein_bottle" ttl

def decorators_cached_mobius_strip {σ : Type} :
    Option Int → (String → String) → (σ → PyArgs → σ × PyVal) →
    Option CacheManager → σ → PyArgs → Int → Option CacheManager × σ × PyVal :=
  fun ttl => decoratorsKindCall "mobius_strip" ttl

def decorators_cached_torus {σ : Type} :
    Option Int → (String → String) → (σ → PyArgs → σ × PyVal) →
    Option CacheManager → σ → PyArgs → Int → Option CacheManager × σ × PyVal :=
  fun ttl => decoratorsKindCall "torus" ttl

def decorators_cached_topology {σ : Type} :
    Option Int → (String → String) → (σ → PyArgs → σ × PyVal) →
    Option CacheManager → σ → PyArgs → Int → Option CacheManager × σ × PyVal :=
  fun ttl => decoratorsKindCall "topology" ttl

/-- Model of applying a per-computation-kind decorator of the monolithic
`cache.py` to a function: `get_cache_manager()` runs at decoration time,
outside any `try`, so with an uninitialized registry the decoration itself
raises `RuntimeError`; otherwise it returns the closure data of the
wrapper (the manager, the kind, and the ttl). -/
def cachePyKindDecorate (kind : String) (ttl : Option Int)
    (reg : Option CacheManager) :
    Except String (CacheManager × String × Option Int) :=
  match get_cache_manager reg with
  | Except.error e => Except.error e
  | Except.ok m => Except.ok (m, kind, ttl)

def cachePy_cached_klein_bottle :
    Option Int → Option CacheManager →
    Except String (CacheManager × String × Option Int) :=
  fun ttl => cachePyKindDecorate "klein_bottle" ttl

def cachePy_cached_mobius_strip :
    Option Int → Option CacheManager →
    Except String (CacheManager × String × Option Int) :=
  fun ttl => cachePyKindDecorate "mobius_strip" ttl

def cachePy_cached_torus :
    Option Int → Option CacheManager →
    Except String (CacheManager × String × Option Int) :=
  fun ttl => cachePyKindDecorate "torus" ttl

def cachePy_cached_topology :
    Option Int → Option CacheManager →
    Except String (CacheManager × String × Option Int) :=
  fun ttl => cachePyKindDecorate "topology" ttl

/-! ## Injectivity of the rendering

The serialized string determines the JSON tree.  This is proved by showing
that `emit v` can be split off unambiguously from any continuation that
starts with a delimiter character. -/

def isDigitB (c : Char) : Bool := decide (48 ≤ c.toNat ∧ c.toNat ≤ 57)

theorem natCharsAux_congr : ∀ (f1 f2 n : Nat), n < f1 → n < f2 →
    natCharsAux f1 n = natCharsAux f2 n := by
  intro f1
  induction f1 with
  | zero => intro f2 n h1 _; omega
  | succ f ih =>
    intro f2 n h1 h2
    cases f2 with
    | zero => omega
    | succ f2 =>
      by_cases hn : n < 10
      · simp [natCharsAux, hn]
      · have hdiv : n / 10 < n := Nat.div_lt_self (by omega) (by omega)
        simp only [natCharsAux, if_neg hn]
        rw [ih f2 (n / 10) (by omega) (by omega)]

theorem natChars_eq (n : Nat) : natChars n =
    if n < 10 then [digitChar n]
    else natChars (n / 10) ++ [digitChar (n % 10)] := by
  by_cases hn : n < 10
  · simp [natChars, natCharsAux, hn]
  · have hdiv : n / 10 < n := Nat.div_lt_self (by omega) (by omega)
    rw [if_neg hn]
    have h1 : natCharsAux (n + 1) n = natCharsAux n (n / 10) ++ [digitChar (n % 10)] := by
      simp only [natCharsAux, if_neg hn]
    have h2 : natCharsAux n (n / 10) = natCharsAux (n / 10 + 1) (n / 10) :=
      natCharsAux_congr n (n / 10 + 1) (n / 10) (by omega) (by omega)
    show natCharsAux (n + 1) n = natChars (n / 10) ++ [digitChar (n % 10)]
    rw [h1, h2]
    rfl

theorem digitChar_toNat (d : Nat) (h : d < 10) : (digitChar d).toNat = 48 + d := by
  interval_cases d <;> decide

theorem digitChar_isDigit (d : Nat) (h : d < 10) : isDigitB (digitChar d) = true := by
  interval_cases d <;> decide

theorem natChars_all_digits (n : Nat) : ∀ c ∈ natChars n, isDigitB c = true := by
  induction n using Nat.strong_induction_on with
  | _ n ih =>
    rw [natChars_eq]
    by_cases hn : n < 10
    · simp only [if_pos hn, List.mem_singleton]
      intro c hc; subst hc; exact digitChar_isDigit n hn
    · have hdiv : n / 10 < n := Nat.div_lt_self (by omega) (by omega)
      simp only [if_neg hn, List.mem_append, List.mem_singleton]
      intro c hc
      rcases hc with hc | hc
      · exact ih (n / 10) hdiv c hc
      · subst hc; exact digitChar_isDigit (n % 10) (Nat.mod_lt n (by omega))

theorem natChars_ne_nil (n : Nat) : natChars n ≠ [] := by
  rw [natChars_eq]
  by_cases hn : n < 10 <;> simp [hn]

def digitsToNat (l : List Char) : Nat :=
  List.foldl (fun acc c => 10 * acc + (c.toNat - 48)) 0 l

theorem digitsToNat_snoc (l : List Char) (c : Char) :
    digitsToNat (l ++ [c]) = 10 * digitsToNat l + (c.toNat - 48) := by
  simp [digitsToNat, List.foldl_append]

theorem digitsToNat_natChars (n : Nat) : digitsToNat (natChars n) = n := by
  induction n using Nat.strong_induction_on with
  | _ n ih =>
    rw [natChars_eq]
    by_cases hn : n < 10
    · simp only [if_pos hn]
      show digitsToNat ([] ++ [digitChar n]) = n
      rw [digitsToNat_snoc, digitChar_toNat n hn]
      simp [digitsToNat]
    · have hdiv : n / 10 < n := Nat.div_lt_self (by omega) (by omega)
      simp only [if_neg hn]
      rw [digitsToNat_snoc, ih (n / 10) hdiv,
        digitChar_toNat (n % 10) (Nat.mod_lt n (by omega))]
      omega

theorem natChars_inj {n1 n2 : Nat} (h : natChars n1 = natChars n2) : n1 = n2 := by
  have := congrArg digitsToNat h
  rwa [digitsToNat_natChars, digitsToNat_natChars] at this

def noDigitHead : List Char → Prop
  | [] => True
  | c :: _ => isDigitB c = false

theorem digits_prefix_eq : ∀ (a1 a2 r1 r2 : List Char),
    (∀ c ∈ a1, isDigitB c = true) → (∀ c ∈ a2, isDigitB c = true) →
    noDigitHead r1 → noDigitHead r2 → a1 ++ r1 = a2 ++ r2 →
    a1 = a2 ∧ r1 = r2 := by
  intro a1
  induction a1 with
  | nil =>
    intro a2 r1 r2 _ d2 g1 _ h
    cases a2 with
    | nil => exact ⟨rfl, h⟩
    | cons c cs =>
      exfalso
      simp only [List.nil_append, List.cons_append] at h
      subst h
      have hc : isDigitB c = true := d2 c (by simp)
      simp [noDigitHead] at g1
      rw [g1] at hc
      exact Bool.false_ne_true hc
  | cons c cs ih =>
    intro a2 r1 r2 d1 d2 g1 g2 h
    cases a2 with
    | nil =>
      exfalso
      simp only [List.cons_append, List.nil_append] at h
      have hc : isDigitB c = true := d1 c (by simp)
      rw [← h] at g2
      simp [noDigitHead] at g2
      rw [g2] at hc
      exact Bool.false_ne_true hc
    | cons d ds =>
      simp only [List.cons_append, List.cons.injEq] at h
      obtain ⟨hcd, htl⟩ := h
      subst hcd
      have := ih ds r1 r2 (fun x hx => d1 x (by simp [hx]))
        (fun x hx => d2 x (by simp [hx])) g1 g2 htl
      exact ⟨by rw [this.1], this.2⟩

theorem natChars_append_inj {n1 n2 : Nat} {r1 r2 : List Char}
    (g1 : noDigitHead r1) (g2 : noDigitHead r2)
    (h : natChars n1 ++ r1 = natChars n2 ++ r2) : n1 = n2 ∧ r1 = r2 := by
  have := digits_prefix_eq (natChars n1) (natChars n2) r1 r2
    (natChars_all_digits n1) (natChars_all_digits n2) g1 g2 h
  exact ⟨natChars_inj this.1, this.2⟩

theorem natChars_head_digit (n : Nat) :
    ∃ c cs, natChars n = c :: cs ∧ isDigitB c = true := by
  cases hc : natChars n with
  | nil => exact absurd hc (natChars_ne_nil n)
  | cons c cs =>
    exact ⟨c, cs, rfl, natChars_all_digits n c (by rw [hc]; simp)⟩

theorem intChars_append_inj {i1 i2 : Int} {r1 r2 : List Char}
    (g1 : noDigitHead r1) (g2 : noDigitHead r2)
    (h : intChars i1 ++ r1 = intChars i2 ++ r2) : i1 = i2 ∧ r1 = r2 := by
  unfold intChars at h
  by_cases h1 : i1 < 0 <;> by_cases h2 : i2 < 0
  · simp only [if_pos h1, if_pos h2, List.cons_append, List.cons.injEq] at h
    have := natChars_append_inj g1 g2 h.2
    exact ⟨by omega, this.2⟩
  · exfalso
    simp only [if_pos h1, if_neg h2, List.cons_append] at h
    obtain ⟨c, cs, hc, hd⟩ := natChars_head_digit i2.natAbs
    rw [hc] at h
    simp only [List.cons_append, List.cons.injEq] at h
    rw [← h.1] at hd
    exact absurd hd (by decide)
  · exfalso
    simp only [if_neg h1, if_pos h2, List.cons_append] at h
    obtain ⟨c, cs, hc, hd⟩ := natChars_head_digit i1.natAbs
    rw [hc] at h
    simp only [List.cons_append, List.cons.injEq] at h
    rw [h.1] at hd
    exact absurd hd (by decide)
  · simp only [if_neg h1, if_neg h2] at h
    have := natChars_append_inj g1 g2 h
    exact ⟨by omega, this.2⟩

theorem escChars_append_inj : ∀ (a b r1 r2 : List Char),
    escChars a ++ '"' :: r1 = escChars b ++ '"' :: r2 → a = b ∧ r1 = r2 := by
  intro a
  induction a with
  | nil =>
    intro b r1 r2 h
    cases b with
    | nil => simpa using h
    | cons d ds =>
      exfalso
      simp only [escChars, List.nil_append, List.append_assoc] at h
      by_cases hd : d = '"' ∨ d = '\\'
      · rw [escChar, if_pos hd] at h
        simp only [List.cons_append, List.cons.injEq] at h
        exact absurd h.1 (by decide)
      · rw [escChar, if_neg hd] at h
        simp only [List.cons_append, List.cons.injEq] at h
        exact hd (Or.inl h.1.symm)
  | cons c cs ih =>
    intro b r1 r2 h
    cases b with
    | nil =>
      exfalso
      simp only [escChars, List.nil_append, List.append_assoc] at h
      by_cases hc : c = '"' ∨ c = '\\'
      · rw [escChar, if_pos hc] at h
        simp only [List.cons_append, List.cons.injEq] at h
        exact absurd h.1 (by decide)
      · rw [escChar, if_neg hc] at h
        simp only [List.cons_append, List.cons.injEq] at h
        exact hc (Or.inl h.1)
    | cons d ds =>
      simp only [escChars, List.append_assoc] at h
      by_cases hc : c = '"' ∨ c = '\\' <;> by_cases hd : d = '"' ∨ d = '\\'
      · rw [escChar, if_pos hc, escChar, if_pos hd] at h
        simp only [List.cons_append, List.cons.injEq] at h
        obtain ⟨-, hcd, htl⟩ := h
        subst hcd
        have := ih ds r1 r2 htl
        exact ⟨by rw [this.1], this.2⟩
      · exfalso
        rw [escChar, if_pos hc, escChar, if_neg hd] at h
        simp only [List.cons_append, List.cons.injEq] at h
        exact hd (Or.inr h.1.symm)
      · exfalso
        rw [escChar, if_neg hc, escChar, if_pos hd] at h
        simp only [List.cons_append, List.cons.injEq] at h
        exact hc (Or.inr h.1)
      · rw [escChar, if_neg hc, escChar, if_neg hd] at h
        simp only [List.cons_append, List.cons.injEq] at h
        obtain ⟨hcd, htl⟩ := h
        subst hcd
        have := ih ds r1 r2 htl
        exact ⟨by rw [this.1], this.2⟩

/-! ## First-character discrimination

Every rendered value starts with a character that identifies its
constructor; none of the delimiter characters can start a value. -/

def tagOf : JVal → Nat
  | JVal.null => 0
  | JVal.jbool true => 1
  | JVal.jbool false => 2
  | JVal.jint _ => 3
  | JVal.jstr _ => 4
  | JVal.jarr _ => 5
  | JVal.jobj _ => 6

def charTag (c : Char) : Nat :=
  if c = 'n' then 0
  else if c = 't' then 1
  else if c = 'f' then 2
  else if isDigitB c = true ∨ c = '-' then 3
  else if c = '"' then 4
  else if c = '[' then 5
  else if c = '{' then 6
  else 7

theorem charTag_digit {c : Char} (h : isDigitB c = true) : charTag c = 3 := by
  have hn : ¬ c = 'n' := fun e => absurd h (by subst e; decide)
  have ht : ¬ c = 't' := fun e => absurd h (by subst e; decide)
  have hf : ¬ c = 'f' := fun e => absurd h (by subst e; decide)
  simp [charTag, hn, ht, hf, h]

theorem emit_cons : ∀ v : JVal, ∃ c cs, emit v = c :: cs ∧ charTag c = tagOf v := by
  intro v
  cases v with
  | null => exact ⟨'n', ['u', 'l', 'l'], rfl, by decide⟩
  | jbool b =>
    cases b with
    | true => exact ⟨'t', ['r', 'u', 'e'], rfl, by decide⟩
    | false => exact ⟨'f', ['a', 'l', 's', 'e'], rfl, by decide⟩
  | jint n =>
    show ∃ c cs, intChars n = c :: cs ∧ charTag c = 3
    rw [intChars]
    by_cases hn : n < 0
    · exact ⟨'-', natChars n.natAbs, by rw [if_pos hn], by decide⟩
    · obtain ⟨c, cs, hc, hd⟩ := natChars_head_digit n.natAbs
      exact ⟨c, cs, by rw [if_neg hn, hc], charTag_digit hd⟩
  | jstr s => exact ⟨'"', escChars s.data ++ ['"'], rfl, rfl⟩
  | jarr xs => exact ⟨'[', emitArr xs ++ [']'], rfl, rfl⟩
  | jobj fs => exact ⟨'{', emitObj fs ++ ['}'], rfl, rfl⟩

theorem emit_append_tag {v1 v2 : JVal} {r1 r2 : List Char}
    (h : emit v1 ++ r1 = emit v2 ++ r2) : tagOf v1 = tagOf v2 := by
  obtain ⟨c1, t1, e1, ht1⟩ := emit_cons v1
  obtain ⟨c2, t2, e2, ht2⟩ := emit_cons v2
  rw [e1, e2] at h
  simp only [List.cons_append, List.cons.injEq] at h
  rw [← ht1, ← ht2, h.1]

theorem tagOf_le (v : JVal) : tagOf v ≤ 6 := by
  cases v with
  | jbool b => cases b <;> simp [tagOf]
  | _ => simp [tagOf]

/-- The continuations that may legitimately follow a rendered value:
nothing, or a separator or closing delimiter. -/
def goodRest : List Char → Prop
  | [] => True
  | c :: _ => c = ',' ∨ c = ']' ∨ c = '}'

theorem goodRest_noDigitHead {r : List Char} (h : goodRest r) : noDigitHead r := by
  cases r with
  | nil => trivial
  | cons c cs =>
    rcases h with h | h | h <;> (subst h; rfl)

theorem emitArr_cons : ∀ (x : JVal) (tl : JArr), ∃ c cs,
    emitArr (JArr.acons x tl) = c :: cs ∧ charTag c = tagOf x := by
  intro x tl
  obtain ⟨c, cs, hc, ht⟩ := emit_cons x
  cases tl with
  | anil => exact ⟨c, cs, by rw [emitArr, hc], ht⟩
  | acons y tl2 =>
    exact ⟨c, cs ++ (',' :: ' ' :: emitArr (JArr.acons y tl2)),
      by rw [emitArr, hc]; rfl, ht⟩

theorem emitObj_cons : ∀ (k : String) (v : JVal) (tl : JObj), ∃ cs,
    emitObj (JObj.ocons k v tl) = '"' :: cs := by
  intro k v tl
  cases tl with
  | onil => exact ⟨escChars k.data ++ ('"' :: ':' :: ' ' :: emit v), rfl⟩
  | ocons k2 v2 tl2 =>
    exact ⟨(escChars k.data ++ ('"' :: ':' :: ' ' :: emit v)) ++
      (',' :: ' ' :: emitObj (JObj.ocons k2 v2 tl2)), by rw [emitObj]; rfl⟩

theorem tagOf_null {v : JVal} (h : tagOf v = 0) : v = JVal.null := by
  cases v with
  | jbool b => cases b <;> simp [tagOf] at h
  | null => rfl
  | _ => simp [tagOf] at h

theorem tagOf_true {v : JVal} (h : tagOf v = 1) : v = JVal.jbool true := by
  cases v with
  | jbool b =>
    cases b with
    | true => rfl
    | false => simp [tagOf] at h
  | _ => simp [tagOf] at h

theorem tagOf_false {v : JVal} (h : tagOf v = 2) : v = JVal.jbool false := by
  cases v with
  | jbool b =>
    cases b with
    | true => simp [tagOf] at h
    | false => rfl
  | _ => simp [tagOf] at h

theorem tagOf_int {v : JVal} (h : tagOf v = 3) : ∃ n, v = JVal.jint n := by
  cases v with
  | jbool b => cases b <;> simp [tagOf] at h
  | jint n => exact ⟨n, rfl⟩
  | _ => simp [tagOf] at h

theorem tagOf_str {v : JVal} (h : tagOf v = 4) : ∃ s, v = JVal.jstr s := by
  cases v with
  | jbool b => cases b <;> simp [tagOf] at h
  | jstr s => exact ⟨s, rfl⟩
  | _ => simp [tagOf] at h

theorem tagOf_arr {v : JVal} (h : tagOf v = 5) : ∃ xs, v = JVal.jarr xs := by
  cases v with
  | jbool b => cases b <;> simp [tagOf] at h
  | jarr xs => exact ⟨xs, rfl⟩
  | _ => simp [tagOf] at h

theorem tagOf_obj {v : JVal} (h : tagOf v = 6) : ∃ fs, v = JVal.jobj fs := by
  cases v with
  | jbool b => cases b <;> simp [tagOf] at h
  | jobj fs => exact ⟨fs, rfl⟩
  | _ => simp [tagOf] at h

theorem strdata_inj {s t : String} (h : s.data = t.data) : s = t := by
  cases s
  cases t
  exact congrArg String.mk h

mutual

theorem emit_prefix_inj : ∀ (v1 v2 : JVal) (r1 r2 : List Char),
    goodRest r1 → goodRest r2 → emit v1 ++ r1 = emit v2 ++ r2 →
    v1 = v2 ∧ r1 = r2 := by
  intro v1 v2 r1 r2 g1 g2 h
  have htag := emit_append_tag h
  cases v1 with
  | null =>
    rw [tagOf_null htag.symm] at h ⊢
    refine ⟨rfl, ?_⟩
    simpa [emit] using h
  | jbool b =>
    cases b with
    | true =>
      rw [tagOf_true htag.symm] at h ⊢
      refine ⟨rfl, ?_⟩
      simpa [emit] using h
    | false =>
      rw [tagOf_false htag.symm] at h ⊢
      refine ⟨rfl, ?_⟩
      simpa [emit] using h
  | jint n =>
    obtain ⟨m, rfl⟩ := tagOf_int htag.symm
    simp only [emit] at h
    obtain ⟨he, hr⟩ := intChars_append_inj
      (goodRest_noDigitHead g1) (goodRest_noDigitHead g2) h
    exact ⟨by rw [he], hr⟩
  | jstr s =>
    obtain ⟨t, rfl⟩ := tagOf_str htag.symm
    simp only [emit, List.cons_append, List.append_assoc, List.singleton_append,
      List.cons.injEq, true_and] at h
    obtain ⟨hd, hr⟩ := escChars_append_inj s.data t.data r1 r2 h
    exact ⟨by rw [strdata_inj hd], hr⟩
  | jarr xs =>
    obtain ⟨ys, rfl⟩ := tagOf_arr htag.symm
    simp only [emit, List.cons_append, List.append_assoc, List.singleton_append,
      List.cons.injEq, true_and] at h
    obtain ⟨hx, hr⟩ := emitArr_prefix_inj xs ys r1 r2 h
    exact ⟨by rw [hx], hr⟩
  | jobj fs =>
    obtain ⟨gs, rfl⟩ := tagOf_obj htag.symm
    simp only [emit, List.cons_append, List.append_assoc, List.singleton_append,
      List.cons.injEq, true_and] at h
    obtain ⟨hf, hr⟩ := emitObj_prefix_inj fs gs r1 r2 h
    exact ⟨by rw [hf], hr⟩

theorem emitArr_prefix_inj : ∀ (l1 l2 : JArr) (r1 r2 : List Char),
    emitArr l1 ++ ']' :: r1 = emitArr l2 ++ ']' :: r2 →
    l1 = l2 ∧ r1 = r2 := by
  intro l1 l2 r1 r2 h
  cases l1 with
  | anil =>
    cases l2 with
    | anil =>
      refine ⟨rfl, ?_⟩
      simpa [emitArr] using h
    | acons y tl =>
      exfalso
      obtain ⟨c, cs, hc, ht⟩ := emitArr_cons y tl
      rw [hc] at h
      simp only [emitArr, List.nil_append, List.cons_append, List.cons.injEq] at h
      rw [← h.1] at ht
      have := tagOf_le y
      rw [← ht] at this
      exact absurd this (by decide)
  | acons x tl1 =>
    cases l2 with
    | anil =>
      exfalso
      obtain ⟨c, cs, hc, ht⟩ := emitArr_cons x tl1
      rw [hc] at h
      simp only [emitArr, List.nil_append, List.cons_append, List.cons.injEq] at h
      rw [h.1] at ht
      have := tagOf_le x
      rw [← ht] at this
      exact absurd this (by decide)
    | acons y tl2 =>
      cases tl1 with
      | anil =>
        cases tl2 with
        | anil =>
          simp only [emitArr] at h
          obtain ⟨hx, hr⟩ := emit_prefix_inj x y (']' :: r1) (']' :: r2)
            (Or.inr (Or.inl rfl)) (Or.inr (Or.inl rfl)) h
          simp only [List.cons.injEq, true_and] at hr
          exact ⟨by rw [hx], hr⟩
        | acons z tl2' =>
          exfalso
          simp only [emitArr, List.cons_append, List.append_assoc] at h
          obtain ⟨-, hr⟩ := emit_prefix_inj x y (']' :: r1)
            (',' :: ' ' :: (emitArr (JArr.acons z tl2') ++ ']' :: r2))
            (Or.inr (Or.inl rfl)) (Or.inl rfl) h
          simp only [List.cons.injEq] at hr
          exact absurd hr.1 (by decide)
      | acons x2 tl1' =>
        cases tl2 with
        | anil =>
          exfalso
          simp only [emitArr, List.cons_append, List.append_assoc] at h
          obtain ⟨-, hr⟩ := emit_prefix_inj x y
            (',' :: ' ' :: (emitArr (JArr.acons x2 tl1') ++ ']' :: r1))
            (']' :: r2) (Or.inl rfl) (Or.inr (Or.inl rfl)) h
          simp only [List.cons.injEq] at hr
          exact absurd hr.1 (by decide)
        | acons y2 tl2' =>
          simp only [emitArr, List.cons_append, List.append_assoc] at h
          obtain ⟨hx, hr⟩ := emit_prefix_inj x y
            (',' :: ' ' :: (emitArr (JArr.acons x2 tl1') ++ ']' :: r1))
            (',' :: ' ' :: (emitArr (JArr.acons y2 tl2') ++ ']' :: r2))
            (Or.inl rfl) (Or.inl rfl) h
          simp only [List.cons.injEq, true_and] at hr
          obtain ⟨htl, hr2⟩ := emitArr_prefix_inj (JArr.acons x2 tl1')
            (JArr.acons y2 tl2') r1 r2 hr
          exact ⟨by rw [hx, htl], hr2⟩

theorem emitObj_prefix_inj : ∀ (l1 l2 : JObj) (r1 r2 : List Char),
    emitObj l1 ++ '}' :: r1 = emitObj l2 ++ '}' :: r2 →
    l1 = l2 ∧ r1 = r2 := by
  intro l1 l2 r1 r2 h
  cases l1 with
  | onil =>
    cases l2 with
    | onil =>
      refine ⟨rfl, ?_⟩
      simpa [emitObj] using h
    | ocons k v tl =>
      exfalso
      obtain ⟨cs, hc⟩ := emitObj_cons k v tl
      rw [hc] at h
      simp only [emitObj, List.nil_append, List.cons_append, List.cons.injEq] at h
      exact absurd h.1 (by decide)
  | ocons k1 v1 tl1 =>
    cases l2 with
    | onil =>
      exfalso
      obtain ⟨cs, hc⟩ := emitObj_cons k1 v1 tl1
      rw [hc] at h
      simp only [emitObj, List.nil_append, List.cons_append, List.cons.injEq] at h
      exact absurd h.1 (by decide)
    | ocons k2 v2 tl2 =>
      cases tl1 with
      | onil =>
        cases tl2 with
        | onil =>
          simp only [emitObj, List.cons_append, List.append_assoc,
            List.cons.injEq, true_and] at h
          obtain ⟨hk, hr⟩ := escChars_append_inj k1.data k2.data _ _ h
          simp only [List.cons.injEq, true_and] at hr
          obtain ⟨hv, hr2⟩ := emit_prefix_inj v1 v2 ('}' :: r1) ('}' :: r2)
            (Or.inr (Or.inr rfl)) (Or.inr (Or.inr rfl)) hr
          simp only [List.cons.injEq, true_and] at hr2
          exact ⟨by rw [strdata_inj hk, hv], hr2⟩
        | ocons k3 v3 tl2' =>
          exfalso
          simp only [emitObj, List.cons_append, List.append_assoc,
            List.cons.injEq, true_and] at h
          obtain ⟨hk, hr⟩ := escChars_append_inj k1.data k2.data _ _ h
          simp only [List.cons.injEq, true_and] at hr
          obtain ⟨-, hr2⟩ := emit_prefix_inj v1 v2 ('}' :: r1)
            (',' :: ' ' :: (emitObj (JObj.ocons k3 v3 tl2') ++ '}' :: r2))
            (Or.inr (Or.inr rfl)) (Or.inl rfl) hr
          simp only [List.cons.injEq] at hr2
          exact absurd hr2.1 (by decide)
      | ocons k3 v3 tl1' =>
        cases tl2 with
        | onil =>
          exfalso
          simp only [emitObj, List.cons_append, List.append_assoc,
            List.cons.injEq, true_and] at h
          obtain ⟨hk, hr⟩ := escChars_append_inj k1.data k2.data _ _ h
          simp only [List.cons.injEq, true_and] at hr
          obtain ⟨-, hr2⟩ := emit_prefix_inj v1 v2
            (',' :: ' ' :: (emitObj (JObj.ocons k3 v3 tl1') ++ '}' :: r1))
            ('}' :: r2) (Or.inl rfl) (Or.inr (Or.inr rfl)) hr
          simp only [List.cons.injEq] at hr2
          exact absurd hr2.1 (by decide)
        | ocons k4 v4 tl2' =>
          simp only [emitObj, List.cons_append, List.append_assoc,
            List.cons.injEq, true_and] at h
          obtain ⟨hk, hr⟩ := escChars_append_inj k1.data k2.data _ _ h
          simp only [List.cons.injEq, true_and] at hr
          obtain ⟨hv, hr2⟩ := emit_prefix_inj v1 v2
            (',' :: ' ' :: (emitObj (JObj.ocons k3 v3 tl1') ++ '}' :: r1))
            (',' :: ' ' :: (emitObj (JObj.ocons k4 v4 tl2') ++ '}' :: r2))
            (Or.inl rfl) (Or.inl rfl) hr
          simp only [List.cons.injEq, true_and] at hr2
          obtain ⟨htl, hr3⟩ := emitObj_prefix_inj (JObj.ocons k3 v3 tl1')
            (JObj.ocons k4 v4 tl2') r1 r2 hr2
          exact ⟨by rw [strdata_inj hk, hv, htl], hr3⟩

end

/-- The rendered string of a JSON tree determines the tree. -/
theorem emit_inj {v1 v2 : JVal} (h : emit v1 = emit v2) : v1 = v2 :=
  (emit_prefix_inj v1 v2 [] [] trivial trivial (by simpa using h)).1

/-! ## Facts about the key order and the field sort -/

theorem charsLtb_asymm : ∀ (a b : List Char),
    charsLtb a b = true → charsLtb b a = false := by
  intro a
  induction a with
  | nil =>
    intro b h
    cases b with
    | nil => simp [charsLtb] at h
    | cons d ds => simp [charsLtb]
  | cons c cs ih =>
    intro b h
    cases b with
    | nil => simp [charsLtb] at h
    | cons d ds =>
      by_cases hcd : c = d
      · subst hcd
        simp only [charsLtb, if_pos rfl] at h ⊢
        exact ih ds h
      · have hdc : ¬ d = c := fun e => hcd e.symm
        simp only [charsLtb, if_neg hcd, if_neg hdc, decide_eq_true_eq] at h ⊢
        simp only [decide_eq_false_iff_not]
        omega

theorem charsLtb_total_eq : ∀ (a b : List Char),
    charsLtb a b = false → charsLtb b a = false → a = b := by
  intro a
  induction a with
  | nil =>
    intro b h1 _
    cases b with
    | nil => rfl
    | cons d ds => simp [charsLtb] at h1
  | cons c cs ih =>
    intro b h1 h2
    cases b with
    | nil => simp [charsLtb] at h2
    | cons d ds =>
      by_cases hcd : c = d
      · subst hcd
        simp only [charsLtb, if_pos rfl] at h1 h2
        rw [ih ds h1 h2]
      · exfalso
        have hdc : ¬ d = c := fun e => hcd e.symm
        simp only [charsLtb, if_neg hcd, if_neg hdc, decide_eq_false_iff_not] at h1 h2
        have : c.toNat = d.toNat := by omega
        exact hcd (Char.ext (by
          have h3 : c.val.toNat = d.val.toNat := this
          exact UInt32.toNat.inj h3))

theorem charsLtb_trans : ∀ (a b c : List Char),
    charsLtb a b = true → charsLtb b c = true → charsLtb a c = true := by
  intro a
  induction a with
  | nil =>
    intro b c h1 h2
    cases b with
    | nil => simp [charsLtb] at h1
    | cons d ds =>
      cases c with
      | nil => simp [charsLtb] at h2
      | cons e es => simp [charsLtb]
  | cons x xs ih =>
    intro b c h1 h2
    cases b with
    | nil => simp [charsLtb] at h1
    | cons d ds =>
      cases c with
      | nil => simp [charsLtb] at h2
      | cons e es =>
        by_cases hxd : x = d <;> by_cases hde : d = e
        · subst hxd; subst hde
          simp only [charsLtb, if_pos rfl] at h1 h2 ⊢
          exact ih ds es h1 h2
        · subst hxd
          simp only [charsLtb, if_pos rfl, if_neg hde] at h1 h2 ⊢
          exact h2
        · subst hde
          simp only [charsLtb, if_neg hxd] at h1 ⊢
          exact h1
        · simp only [charsLtb, if_neg hxd, if_neg hde, decide_eq_true_eq] at h1 h2
          by_cases hxe : x = e
          · exfalso; subst hxe; omega
          · simp only [charsLtb, if_neg hxe, decide_eq_true_eq]
            omega

/-- The non-strict order the sorted field list satisfies: left key not
greater than right key. -/
def pairLe (p q : String × JVal) : Prop := strLtb q.1 p.1 = false

theorem pairLe_total (p q : String × JVal) : pairLe p q ∨ pairLe q p := by
  unfold pairLe strLtb
  by_cases h : charsLtb q.1.data p.1.data = true
  · exact Or.inr (charsLtb_asymm _ _ h)
  · exact Or.inl (by simpa using h)

theorem pairLe_trans {p q r : String × JVal}
    (h1 : pairLe p q) (h2 : pairLe q r) : pairLe p r := by
  unfold pairLe strLtb at h1 h2 ⊢
  by_contra hc
  have hlt : charsLtb r.1.data p.1.data = true := by
    cases h : charsLtb r.1.data p.1.data with
    | true => rfl
    | false => exact absurd h hc
  by_cases hpq : charsLtb p.1.data q.1.data = true
  · have := charsLtb_trans _ _ _ hlt hpq
    rw [h2] at this
    exact absurd this (by decide)
  · have hpq2 : charsLtb p.1.data q.1.data = false := by
      cases h : charsLtb p.1.data q.1.data with
      | true => exact absurd h hpq
      | false => rfl
    have heq : p.1.data = q.1.data := charsLtb_total_eq _ _ hpq2 h1
    rw [heq] at hlt
    rw [h2] at hlt
    exact absurd hlt (by decide)

theorem insPair_perm (p : String × JVal) : ∀ l, List.Perm (insPair p l) (p :: l) := by
  intro l
  induction l with
  | nil => exact List.Perm.refl _
  | cons q qs ih =>
    by_cases h : strLtb q.1 p.1 = true
    · simp only [insPair, if_pos h]
      exact (ih.cons q).trans (List.Perm.swap p q qs)
    · simp only [insPair, if_neg h]
      exact List.Perm.refl _

theorem sortPairs_perm : ∀ l, List.Perm (sortPairs l) l := by
  intro l
  induction l with
  | nil => exact List.Perm.refl _
  | cons p ps ih =>
    show List.Perm (insPair p (sortPairs ps)) (p :: ps)
    exact (insPair_perm p (sortPairs ps)).trans (ih.cons p)

theorem insPair_sorted (p : String × JVal) :
    ∀ l, List.Pairwise pairLe l → List.Pairwise pairLe (insPair p l) := by
  intro l
  induction l with
  | nil => intro _; simp [insPair, List.pairwise_cons]
  | cons q qs ih =>
    intro hs
    rw [List.pairwise_cons] at hs
    by_cases h : strLtb q.1 p.1 = true
    · simp only [insPair, if_pos h]
      rw [List.pairwise_cons]
      refine ⟨?_, ih hs.2⟩
      intro x hx
      have hperm := insPair_perm p qs
      have hx2 : x ∈ p :: qs := hperm.mem_iff.mp hx
      rcases List.mem_cons.mp hx2 with hx3 | hx3
      · subst hx3
        exact charsLtb_asymm _ _ h
      · exact hs.1 x hx3
    · simp only [insPair, if_neg h]
      rw [List.pairwise_cons]
      have hpq : pairLe p q := by
        unfold pairLe
        cases hb : strLtb q.1 p.1 with
        | true => exact absurd hb h
        | false => rfl
      refine ⟨?_, List.pairwise_cons.mpr hs⟩
      intro x hx
      rcases List.mem_cons.mp hx with hx2 | hx2
      · subst hx2; exact hpq
      · exact pairLe_trans hpq (hs.1 x hx2)

theorem sortPairs_sorted : ∀ l, List.Pairwise pairLe (sortPairs l) := by
  intro l
  induction l with
  | nil => simp [sortPairs]
  | cons p ps ih =>
    show List.Pairwise pairLe (insPair p (sortPairs ps))
    exact insPair_sorted p (sortPairs ps) ih

theorem strLtb_false_eq {s t : String} (h1 : strLtb s t = false)
    (h2 : strLtb t s = false) : s = t :=
  strdata_inj (charsLtb_total_eq _ _ h1 h2)

/-- Two sorted association lists with the same members and duplicate-free
keys are equal. -/
theorem sorted_perm_nodup_eq : ∀ (l1 l2 : List (String × JVal)),
    List.Perm l1 l2 → List.Pairwise pairLe l1 → List.Pairwise pairLe l2 →
    (l1.map Prod.fst).Nodup → l1 = l2 := by
  intro l1
  induction l1 with
  | nil =>
    intro l2 hp _ _ _
    exact List.Perm.nil_eq hp
  | cons p t1 ih =>
    intro l2 hp hs1 hs2 hnd
    cases l2 with
    | nil => exact absurd hp.symm (by simp)
    | cons q t2 =>
      rw [List.pairwise_cons] at hs1 hs2
      by_cases hpq : p = q
      · subst hpq
        have htl := hp.cons_inv
        rw [ih t2 htl hs1.2 hs2.2 (by
          rw [List.map_cons] at hnd
          exact (List.nodup_cons.mp hnd).2)]
      · exfalso
        have hq1 : q ∈ p :: t1 := hp.mem_iff.mpr (by simp)
        have hp2 : p ∈ q :: t2 := hp.mem_iff.mp (by simp)
        have hq2 : q ∈ t1 := by
          rcases List.mem_cons.mp hq1 with h | h
          · exact absurd h.symm hpq
          · exact h
        have hp3 : p ∈ t2 := by
          rcases List.mem_cons.mp hp2 with h | h
          · exact absurd h hpq
          · exact h
        have hle1 : pairLe p q := hs1.1 q hq2
        have hle2 : pairLe q p := hs2.1 p hp3
        have hkey : q.1 = p.1 := strLtb_false_eq hle1 hle2
        rw [List.map_cons, List.nodup_cons] at hnd
        exact hnd.1 (by
          rw [← hkey]
          exact List.mem_map.mpr ⟨q, hq2, rfl⟩)

theorem sortPairs_perm_eq {l1 l2 : List (String × JVal)}
    (hp : List.Perm l1 l2) (hnd : (l1.map Prod.fst).Nodup) :
    sortPairs l1 = sortPairs l2 := by
  refine sorted_perm_nodup_eq (sortPairs l1) (sortPairs l2)
    ((sortPairs_perm l1).trans (hp.trans (sortPairs_perm l2).symm))
    (sortPairs_sorted l1) (sortPairs_sorted l2) ?_
  have : List.Perm ((sortPairs l1).map Prod.fst) (l1.map Prod.fst) :=
    (sortPairs_perm l1).map Prod.fst
  exact this.nodup_iff.mpr hnd

/-! ## Supported argument shapes

The shapes the specification admits for cached calls: scalars, nested
sequences, string-keyed mappings with distinct keys, and numeric arrays at
argument position.  Strings are restricted to printable ASCII, the range
on which the escaping model above matches `json.dumps` exactly. -/

def strOKb (s : String) : Bool :=
  s.data.all (fun c => decide (32 ≤ c.toNat ∧ c.toNat ≤ 126))

def keyMemB (k : String) : PyDict → Bool
  | PyDict.nil => false
  | PyDict.cons k2 _ fs => k = k2 || keyMemB k fs

mutual

def supportedInner : PyVal → Bool
  | PyVal.none => true
  | PyVal.pybool _ => true
  | PyVal.pyint _ => true
  | PyVal.pystr s => strOKb s
  | PyVal.pylist xs => supportedListB xs
  | PyVal.pytuple xs => supportedListB xs
  | PyVal.pydict fs => supportedDictB fs
  | PyVal.ndarray _ => false
  | PyVal.obj _ => false

def supportedListB : PyList → Bool
  | PyList.nil => true
  | PyList.cons x xs => supportedInner x && supportedListB xs

def supportedDictB : PyDict → Bool
  | PyDict.nil => true
  | PyDict.cons k v fs =>
      strOKb k && !(keyMemB k fs) && supportedInner v && supportedDictB fs

end

/-- At argument position a numpy array is also supported (the source
converts it with `tolist()` before serialization). -/
def supportedTop : PyVal → Bool
  | PyVal.ndarray xs => supportedListB xs
  | v => supportedInner v

def supportedTopList : PyList → Bool
  | PyList.nil => true
  | PyList.cons x xs => supportedTop x && supportedTopList xs

def supportedTopDict : PyDict → Bool
  | PyDict.nil => true
  | PyDict.cons k v fs =>
      strOKb k && !(keyMemB k fs) && supportedTop v && supportedTopDict fs

/-- A supported call shape: every positional argument and every keyword
value is supported, keyword names are distinct printable-ASCII strings. -/
def supportedArgs (args : PyList) (kwargs : PyDict) : Bool :=
  supportedTopList args && supportedTopDict kwargs

/-- The canonical equality on call arguments: equality of the serialized
JSON trees.  It identifies mappings up to field order and an array with
the nested sequence of its elements, and is structural equality otherwise. -/
def canonicallyEqual (a1 : PyList) (k1 : PyDict) (a2 : PyList) (k2 : PyDict) : Prop :=
  canonKey a1 k1 = canonKey a2 k2

instance canonicallyEqualDec (a1 : PyList) (k1 : PyDict) (a2 : PyList) (k2 : PyDict) :
    Decidable (canonicallyEqual a1 k1 a2 k2) := by
  unfold canonicallyEqual
  infer_instance

theorem canonPairs_ofList : ∀ fs : List (String × PyVal),
    canonPairs (PyDict.ofList fs) = fs.map (fun p => (p.1, canon p.2)) := by
  intro fs
  induction fs with
  | nil => rfl
  | cons p ps ih =>
    obtain ⟨k, v⟩ := p
    simp only [PyDict.ofList, canonPairs, ih, List.map_cons]

theorem generate_key_congr {hash : String → String} {key_pfx : String}
    {a1 : PyList} {k1 : PyDict} {a2 : PyList} {k2 : PyDict}
    (h : canonKey a1 k1 = canonKey a2 k2) :
    generate_key hash key_pfx a1 k1 = generate_key hash key_pfx a2 k2 := by
  unfold generate_key cache_string
  rw [h]

theorem generate_key_inj {hash : String → String}
    (hinj : Function.Injective hash) {key_pfx : String}
    {a1 : PyList} {k1 : PyDict} {a2 : PyList} {k2 : PyDict}
    (h : generate_key hash key_pfx a1 k1 = generate_key hash key_pfx a2 k2) :
    canonKey a1 k1 = canonKey a2 k2 := by
  unfold generate_key at h
  have h2 : hash (cache_string a1 k1) = hash (cache_string a2 k2) := by
    have h3 := congrArg String.data h
    rw [String.data_append, String.data_append] at h3
    exact strdata_inj (List.append_cancel_left h3)
  have h4 := hinj h2
  unfold cache_string at h4
  exact emit_inj (congrArg String.data h4)

/-! ## Behaviour of single wrapped calls -/

theorem is_expired_access (e : CEntry) (a now : Int) :
    MemoryCache.is_expired { e with access := a } now = MemoryCache.is_expired e now := rfl

theorem lookupEntry_update : ∀ (l : List (String × CEntry)) (k k2 : String) (e : CEntry),
    lookupEntry (updateEntry l k e) k2 =
      if k = k2 then some e else lookupEntry l k2 := by
  intro l
  induction l with
  | nil =>
    intro k k2 e
    by_cases h : k = k2 <;> simp [updateEntry, lookupEntry, h]
  | cons p rest ih =>
    intro k k2 e
    obtain ⟨k0, e0⟩ := p
    by_cases h0 : k0 = k
    · subst h0
      by_cases h2 : k0 = k2 <;> simp [updateEntry, lookupEntry, h2]
    · by_cases h2 : k0 = k2
      · subst h2
        have hne : ¬ k = k0 := fun e2 => h0 e2.symm
        simp [updateEntry, lookupEntry, h0, hne, ih]
      · simp [updateEntry, lookupEntry, h0, h2, ih]

theorem updateEntry_length_mem : ∀ (l : List (String × CEntry)) (k : String) (e e0 : CEntry),
    lookupEntry l k = some e0 →
    (updateEntry l k e).length = l.length := by
  intro l
  induction l with
  | nil => intro k e e0 h; simp [lookupEntry] at h
  | cons p rest ih =>
    intro k e e0 h
    obtain ⟨k0, e1⟩ := p
    by_cases h0 : k0 = k
    · simp [updateEntry, h0]
    · simp only [lookupEntry, if_neg h0] at h
      simp [updateEntry, h0, ih k e e0 h]

theorem updateEntry_length_new : ∀ (l : List (String × CEntry)) (k : String) (e : CEntry),
    lookupEntry l k = Option.none →
    (updateEntry l k e).length = l.length + 1 := by
  intro l
  induction l with
  | nil => intro k e _; simp [updateEntry]
  | cons p rest ih =>
    intro k e h
    obtain ⟨k0, e1⟩ := p
    by_cases h0 : k0 = k
    · simp [lookupEntry, h0] at h
    · simp only [lookupEntry, if_neg h0] at h
      simp [updateEntry, h0, ih k e h]

/-- A wrapped call with caching on and a live, non-`None` entry under the
call's key: a cache hit.  Only `total_requests` and `hit_count` move; the
backend refreshes the access time of the entry; the wrapped function does
not run. -/
theorem cachedComputation_hit {σ : Type} (m : CacheManager) (key_pfx : String)
    (ttl : Option Int) (hash : String → String) (func : σ → PyArgs → σ × PyVal)
    (s : σ) (args : PyArgs) (now : Int) (e : CEntry)
    (hlook : lookupEntry m.backend.entries
      (generate_key hash key_pfx args.1 args.2) = some e)
    (hlive : MemoryCache.is_expired e now = false)
    (hval : e.value ≠ PyVal.none) :
    cachedComputation m key_pfx ttl true hash func s args now =
      ({ m with
          backend := { m.backend with entries :=
            (updateEntry m.backend.entries
              (generate_key hash key_pfx args.1 args.2) { e with access := now }) },
          hit_count := m.hit_count + 1,
          total_requests := m.total_requests + 1 }, s, e.value) := by
  simp [cachedComputation, MemoryCache.get, hlook, hlive, hval]

/-- A wrapped call with caching on and an empty backend that has room:
a cache miss.  The function runs once and its result is stored with the
resolved ttl. -/
theorem cachedComputation_miss_empty {σ : Type} (m : CacheManager) (key_pfx : String)
    (ttl : Option Int) (hash : String → String) (func : σ → PyArgs → σ × PyVal)
    (s : σ) (args : PyArgs) (now : Int)
    (hempty : m.backend.entries = [])
    (hmax : 1 ≤ m.backend.max_size) :
    cachedComputation m key_pfx ttl true hash func s args now =
      ({ m with
          backend := { m.backend with entries :=
            [(generate_key hash key_pfx args.1 args.2,
              { value := (func s args).2, timestamp := now,
                ttl := some (pyOrTtl ttl m.backend.default_ttl), access := now })] },
          miss_count := m.miss_count + 1,
          total_requests := m.total_requests + 1 }, (func s args).1, (func s args).2) := by
  have hlen : ¬ (m.backend.entries.length ≥ m.backend.max_size) := by
    rw [hempty]; simp; omega
  have h0 : ¬ (m.backend.max_size = 0) := by omega
  simp [cachedComputation, MemoryCache.get, MemoryCache.set,
    MemoryCache.evict_if_needed, hempty, hlen, h0, lookupEntry, updateEntry]

/-- Repeated wrapped calls with the same arguments against a backend that
holds exactly the live, non-`None` cached entry for that key: every call
is a hit, the wrapped function state never changes, every result is the
cached value. -/
theorem cachedCallSeq_hit_streak {σ : Type} (key_pfx : String) (ttl : Option Int)
    (hash : String → String) (func : σ → PyArgs → σ × PyVal) (args : PyArgs)
    (v : PyVal) (tstamp : Int) (tt : Option Int) :
    ∀ (ts : List Int) (m : CacheManager) (s : σ) (acc : Int),
    m.backend.entries = [(generate_key hash key_pfx args.1 args.2,
      { value := v, timestamp := tstamp, ttl := tt, access := acc })] →
    v ≠ PyVal.none →
    (∀ t ∈ ts, MemoryCache.is_expired
      { value := v, timestamp := tstamp, ttl := tt, access := 0 } t = false) →
    ((cachedCallSeq key_pfx ttl true hash func (ts.map fun t => (t, args)) m s).2.1 = s
     ∧ (cachedCallSeq key_pfx ttl true hash func (ts.map fun t => (t, args)) m s).2.2
        = List.replicate ts.length v
     ∧ (cachedCallSeq key_pfx ttl true hash func (ts.map fun t => (t, args)) m s).1.hit_count
        = m.hit_count + ts.length
     ∧ (cachedCallSeq key_pfx ttl true hash func (ts.map fun t => (t, args)) m s).1.miss_count
        = m.miss_count
     ∧ (cachedCallSeq key_pfx ttl true hash func (ts.map fun t => (t, args)) m s).1.total_requests
        = m.total_requests + ts.length
     ∧ ∃ acc2, (cachedCallSeq key_pfx ttl true hash func (ts.map fun t => (t, args)) m s).1.backend
        = { m.backend with entries := [(generate_key hash key_pfx args.1 args.2,
            { value := v, timestamp := tstamp, ttl := tt, access := acc2 })] }) := by
  intro ts
  induction ts with
  | nil =>
    intro m s acc hentries _ _
    refine ⟨rfl, rfl, by simp [cachedCallSeq], rfl, by simp [cachedCallSeq], acc, ?_⟩
    simp [cachedCallSeq]
    cases hb : m.backend with
    | mk ms dt es =>
      rw [hb] at hentries
      simp at hentries
      simp [hentries]
  | cons t ts ih =>
    intro m s acc hentries hv hlive
    have hlook : lookupEntry m.backend.entries
        (generate_key hash key_pfx args.1 args.2) =
        some { value := v, timestamp := tstamp, ttl := tt, access := acc } := by
      rw [hentries]; simp [lookupEntry]
    have hlive1 : MemoryCache.is_expired
        { value := v, timestamp := tstamp, ttl := tt, access := acc } t = false :=
      hlive t (by simp)
    have hstep := cachedComputation_hit m key_pfx ttl hash func s args t
      { value := v, timestamp := tstamp, ttl := tt, access := acc } hlook hlive1 hv
    have hupd : updateEntry m.backend.entries
        (generate_key hash key_pfx args.1 args.2)
        { value := v, timestamp := tstamp, ttl := tt, access := t }
        = [(generate_key hash key_pfx args.1 args.2,
            { value := v, timestamp := tstamp, ttl := tt, access := t })] := by
      rw [hentries]; simp [updateEntry]
    simp only [List.map, cachedCallSeq, hstep]
    have ihres := ih
      ({ m with
          backend := { m.backend with entries :=
            [(generate_key hash key_pfx args.1 args.2,
              { value := v, timestamp := tstamp, ttl := tt, access := t })] },
          hit_count := m.hit_count + 1,
          total_requests := m.total_requests + 1 }) s t (by simp) hv
      (fun t2 ht2 => hlive t2 (by simp [ht2]))
    obtain ⟨i1, i2, i3, i4, i5, acc2, i6⟩ := ihres
    rw [hupd] at hstep
    refine ⟨?_, ?_, ?_, ?_, ?_, acc2, ?_⟩
    · simp only [hupd]
      exact i1
    · simp only [hupd, i2, List.replicate, List.length_cons]
    · simp only [hupd, i3]
      simp
      omega
    · simp only [hupd, i4]
    · simp only [hupd, i5]
      simp
      omega
    · simp only [hupd, i6]

/-- Shared core: a pure function with a non-`None` result, wrapped with
caching on over a fresh backend with room, executes exactly once over a
sequence of identically-argumented calls inside the TTL window, and every
call returns the first result. -/
theorem cachedCallSeq_memoizes (hash : String → String) (key_pfx : String)
    (ttl : Option Int) (f : PyArgs → PyVal) (args : PyArgs)
    (m : CacheManager) (t0 : Int) (ts : List Int)
    (hempty : m.backend.entries = [])
    (hmax : 1 ≤ m.backend.max_size)
    (hres : f args ≠ PyVal.none)
    (hwin : ∀ t ∈ ts, t ≤ t0 + pyOrTtl ttl m.backend.default_ttl) :
    ((cachedCallSeq key_pfx ttl true hash (countingFn f)
        ((t0 :: ts).map fun t => (t, args)) m 0).2.1 = 1)
    ∧ ((cachedCallSeq key_pfx ttl true hash (countingFn f)
        ((t0 :: ts).map fun t => (t, args)) m 0).2.2
       = List.replicate (ts.length + 1) (f args)) := by
  have hstep := cachedComputation_miss_empty m key_pfx ttl hash (countingFn f)
    0 args t0 hempty hmax
  have hstreak := cachedCallSeq_hit_streak key_pfx ttl hash (countingFn f) args
    (f args) t0 (some (pyOrTtl ttl m.backend.default_ttl)) ts
    ({ m with
        backend := { m.backend with entries :=
          [(generate_key hash key_pfx args.1 args.2,
            { value := (countingFn f 0 args).2, timestamp := t0,
              ttl := some (pyOrTtl ttl m.backend.default_ttl), access := t0 })] },
        miss_count := m.miss_count + 1,
        total_requests := m.total_requests + 1 })
    (countingFn f 0 args).1 t0 (by simp [countingFn]) hres
    (by
      intro t ht
      simp only [MemoryCache.is_expired]
      simp only [decide_eq_false_iff_not, not_lt]
      exact hwin t ht)
  obtain ⟨i1, i2, _, _, _, _⟩ := hstreak
  simp only [List.map, cachedCallSeq, hstep]
  constructor
  · exact i1
  · rw [i2]
    show (countingFn f 0 args).2 :: _ = _
    simp [countingFn, List.replicate]

/-- C1 (amended): idempotent memoization for non-`None` results.  For a
pure function `f` whose result for the given arguments is not Python
`None`, wrapped with caching on over a fresh backend with room, a sequence
of calls with identical arguments whose later instants all fall inside the
TTL window of the first call executes `f` exactly once (the execution
counter of the instrumented function ends at 1), and every call returns
the result of the first call.  The restriction to non-`None` results is
forced by the source: the wrapper's miss test `cached_result is not None`
cannot tell a stored `None` from a miss, so a `None`-returning function is
re-executed on every call (see the counterexample). -/
theorem idempotent_memoization (hash : String → String) (key_pfx : String)
    (ttl : Option Int) (f : PyArgs → PyVal) (args : PyArgs)
    (m : CacheManager) (t0 : Int) (ts : List Int)
    (hempty : m.backend.entries = [])
    (hmax : 1 ≤ m.backend.max_size)
    (hres : f args ≠ PyVal.none)
    (hwin : ∀ t ∈ ts, t ≤ t0 + pyOrTtl ttl m.backend.default_ttl) :
    ((cachedCallSeq key_pfx ttl true hash (countingFn f)
        ((t0 :: ts).map fun t => (t, args)) m 0).2.1 = 1)
    ∧ ((cachedCallSeq key_pfx ttl true hash (countingFn f)
        ((t0 :: ts).map fun t => (t, args)) m 0).2.2
       = List.replicate (ts.length + 1) (f args)) :=
  cachedCallSeq_memoizes hash key_pfx ttl f args m t0 ts hempty hmax hres hwin

/-- C1 counterexample: the claim quantifies over every pure wrapped
function, but a pure function returning Python `None` defeats the
memoization: with caching on and identical arguments, 5 calls execute the
function 5 times (the claim asserts the counter ends at 1), because the
wrapper's miss test `cached_result is not None` treats the stored `None`
as a miss on every call. -/
theorem idempotent_memoization_cex :
    (cachedCallSeq "klein_bottle" Option.none true id
      (countingFn (fun _ => PyVal.none))
      [(0, (PyList.cons (PyVal.pyint 3) PyList.nil, PyDict.nil)),
       (1, (PyList.cons (PyVal.pyint 3) PyList.nil, PyDict.nil)),
       (2, (PyList.cons (PyVal.pyint 3) PyList.nil, PyDict.nil)),
       (3, (PyList.cons (PyVal.pyint 3) PyList.nil, PyDict.nil)),
       (4, (PyList.cons (PyVal.pyint 3) PyList.nil, PyDict.nil))]
      (mkCacheManager (mkMemoryCache 1000 3600)) 0).2.1 = 5 ∧ (5 : Nat) ≠ 1 := by
  constructor
  · decide
  · decide

/-- C1 witness: the amended theorem applied to the counting function of
the specification (5 identical calls, result 7, counter ends at 1, all
five results equal). -/
theorem idempotent_memoization_witness :
    ((mkCacheManager (mkMemoryCache 1000 3600)).backend.entries = []
     ∧ 1 ≤ (mkCacheManager (mkMemoryCache 1000 3600)).backend.max_size
     ∧ (fun (_ : PyArgs) => PyVal.pyint 7)
         ((PyList.cons (PyVal.pyint 3) PyList.nil, PyDict.nil) : PyArgs) ≠ PyVal.none
     ∧ (∀ t ∈ [(1 : Int), 2, 3, 4],
         t ≤ 0 + pyOrTtl Option.none
           (mkCacheManager (mkMemoryCache 1000 3600)).backend.default_ttl))
    ∧ ((cachedCallSeq "klein_bottle" Option.none true id
          (countingFn (fun _ => PyVal.pyint 7))
          (((0 : Int) :: [1, 2, 3, 4]).map fun t =>
            (t, ((PyList.cons (PyVal.pyint 3) PyList.nil, PyDict.nil) : PyArgs)))
          (mkCacheManager (mkMemoryCache 1000 3600)) 0).2.1 = 1)
    ∧ ((cachedCallSeq "klein_bottle" Option.none true id
          (countingFn (fun _ => PyVal.pyint 7))
          (((0 : Int) :: [1, 2, 3, 4]).map fun t =>
            (t, ((PyList.cons (PyVal.pyint 3) PyList.nil, PyDict.nil) : PyArgs)))
          (mkCacheManager (mkMemoryCache 1000 3600)) 0).2.2
        = List.replicate ([(1 : Int), 2, 3, 4].length + 1) (PyVal.pyint 7)) := by
  have h := idempotent_memoization id "klein_bottle" Option.none
    (fun _ => PyVal.pyint 7)
    ((PyList.cons (PyVal.pyint 3) PyList.nil, PyDict.nil) : PyArgs)
    (mkCacheManager (mkMemoryCache 1000 3600)) 0 [1, 2, 3, 4]
    rfl (by decide) (by decide) (by decide)
  exact ⟨⟨rfl, by decide, by decide, by decide⟩, h.1, h.2⟩

/-- C7 (amended): with `use_cache` false the wrapper calls the function
directly with the original arguments and returns its result; the backend
and the hit and miss counters are untouched and the behaviour is
independent of the key prefix, the ttl, the digest function and the clock
(key generation and backend access are bypassed) — but, unlike the claim,
`total_requests` is still incremented: the source increments it before
testing `use_cache`. -/
theorem force_recompute_path {σ : Type} (m : CacheManager)
    (key_pfx key_pfx2 : String) (ttl ttl2 : Option Int)
    (hash hash2 : String → String)
    (func : σ → PyArgs → σ × PyVal) (s : σ) (args : PyArgs) (now now2 : Int) :
    cachedComputation m key_pfx ttl false hash func s args now
      = ({ m with total_requests := m.total_requests + 1 },
         (func s args).1, (func s args).2)
    ∧ cachedComputation m key_pfx ttl false hash func s args now
      = cachedComputation m key_pfx2 ttl2 false hash2 func s args now2 := by
  constructor <;> simp [cachedComputation]

/-- C7 counterexample: one `use_cache = false` call on a fresh manager
leaves `total_requests` at 1, not 0 — the claim that only the cached path
increments `total_requests` is false. -/
theorem force_recompute_cex :
    (cachedComputation (mkCacheManager (mkMemoryCache 1000 3600)) "p"
      Option.none false id (countingFn (fun _ => PyVal.pyint 1)) 0
      (PyList.nil, PyDict.nil) 0).1.total_requests = 1
    ∧ (1 : Nat) ≠ 0 := by
  constructor
  · decide
  · decide

/-- C10: `MemoryCache.set` is not total when `max_size = 0`: on the
(necessarily empty) cache the eviction step takes `min` over the empty
access-times dict and raises `ValueError`, so `set` never inserts and the
cache stays empty. -/
theorem set_max_size_zero_raises (c : MemoryCache) (key : String)
    (value : PyVal) (ttl : Option Int) (now : Int)
    (hmax : c.max_size = 0) (hempty : c.entries = []) :
    MemoryCache.set c key value ttl now = Option.none := by
  simp [MemoryCache.set, MemoryCache.evict_if_needed, hmax, hempty, minAccessKey]

/-- C10 witness: a freshly constructed `MemoryCache(max_size=0)` raises on
`set`. -/
theorem set_max_size_zero_raises_witness :
    ((mkMemoryCache 0 3600).max_size = 0 ∧ (mkMemoryCache 0 3600).entries = [])
    ∧ MemoryCache.set (mkMemoryCache 0 3600) "k" (PyVal.pyint 1) Option.none 0
        = Option.none :=
  ⟨⟨rfl, rfl⟩,
   set_max_size_zero_raises (mkMemoryCache 0 3600) "k" (PyVal.pyint 1)
     Option.none 0 rfl rfl⟩

/-- C9 (amended): a `None` or zero ttl argument resolves to the backend's
`default_ttl`, but a negative ttl is truthy in Python and is stored
unchanged (it does not resolve to the default); on every successful `set`
the stored entry carries `some` resolved ttl, never the no-expiry `None`
sentinel. -/
theorem set_ttl_resolution (c : MemoryCache) (key : String) (value : PyVal)
    (now : Int) (hroom : c.entries.length < c.max_size) :
    (MemoryCache.set c key value Option.none now
      = some { c with entries := (updateEntry c.entries key
          { value := value, timestamp := now, ttl := some c.default_ttl, access := now }) })
    ∧ (MemoryCache.set c key value (some 0) now
      = some { c with entries := (updateEntry c.entries key
          { value := value, timestamp := now, ttl := some c.default_ttl, access := now }) })
    ∧ (∀ t : Int, t ≠ 0 → MemoryCache.set c key value (some t) now
      = some { c with entries := (updateEntry c.entries key
          { value := value, timestamp := now, ttl := some t, access := now }) })
    ∧ (∀ (ttl : Option Int) (c2 : MemoryCache),
        MemoryCache.set c key value ttl now = some c2 →
        ∃ e, lookupEntry c2.entries key = some e
          ∧ e.ttl = some (pyOrTtl ttl c.default_ttl) ∧ e.ttl ≠ Option.none) := by
  have hlen : ¬ (c.entries.length ≥ c.max_size) := by omega
  refine ⟨?_, ?_, ?_, ?_⟩
  · simp [MemoryCache.set, MemoryCache.evict_if_needed, hlen, pyOrTtl]
  · simp [MemoryCache.set, MemoryCache.evict_if_needed, hlen, pyOrTtl]
  · intro t ht
    simp [MemoryCache.set, MemoryCache.evict_if_needed, hlen, pyOrTtl, ht]
  · intro ttl c2 hset
    simp only [MemoryCache.set, MemoryCache.evict_if_needed, hlen, if_false] at hset
    rw [Option.some.injEq] at hset
    refine ⟨⟨value, now, some (pyOrTtl ttl c.default_ttl), now⟩, ?_, rfl, by simp⟩
    rw [← hset]
    simp [lookupEntry_update]

/-- C9 counterexample: with `default_ttl = 3600`, `set` with `ttl = -5`
stores `-5` (Python `-5 or 3600` is `-5`), and the entry is already expired
one instant later — the claim says a negative ttl resolves to the default
and the entry lives until `storedAt + 3600`. -/
theorem set_ttl_negative_cex :
    lookupEntry ((mkMemoryCache 1000 3600).setD "k" (PyVal.pyint 7)
        (some (-5)) 0).entries "k"
      = some { value := PyVal.pyint 7, timestamp := 0, ttl := some (-5), access := 0 }
    ∧ (((mkMemoryCache 1000 3600).setD "k" (PyVal.pyint 7) (some (-5)) 0).get "k" 1).2
      = PyVal.none
    ∧ (some (-5) : Option Int) ≠ some 3600 := by
  refine ⟨by decide, by decide, by decide⟩

/-- C9 witness: on a backend with room, `set` with a `None` ttl stores the
default ttl, `set` with ttl 7 stores 7, and the stored ttl is never the
no-expiry sentinel. -/
theorem set_ttl_resolution_witness :
    ((mkMemoryCache 1000 3600).entries.length < (mkMemoryCache 1000 3600).max_size)
    ∧ MemoryCache.set (mkMemoryCache 1000 3600) "k" (PyVal.pyint 1) Option.none 0
      = some { (mkMemoryCache 1000 3600) with entries :=
          (updateEntry (mkMemoryCache 1000 3600).entries "k"
            { value := PyVal.pyint 1, timestamp := 0, ttl := some 3600, access := 0 }) }
    ∧ MemoryCache.set (mkMemoryCache 1000 3600) "k" (PyVal.pyint 1) (some 7) 0
      = some { (mkMemoryCache 1000 3600) with entries :=
          (updateEntry (mkMemoryCache 1000 3600).entries "k"
            { value := PyVal.pyint 1, timestamp := 0, ttl := some 7, access := 0 }) } := by
  have h := set_ttl_resolution (mkMemoryCache 1000 3600) "k" (PyVal.pyint 1) 0
    (by decide)
  exact ⟨by decide, h.1, h.2.2.1 7 (by decide)⟩

/-- C3 (amended): an entry is live iff its ttl is `None` or
`now ≤ storedAt + ttl`; expiry is strict (`now > storedAt + ttl`), so at
the exact boundary instant `now = storedAt + ttl` the entry is still
returned.  `get` and `exists` on an expired entry delete it and report
absent; on a live entry `get` refreshes the access time and returns the
value, `exists` reports present. -/
theorem expiry_reaping (c : MemoryCache) (key : String) (now : Int) (e : CEntry)
    (hlook : lookupEntry c.entries key = some e) :
    (MemoryCache.is_expired e now = true ↔
      ∃ t, e.ttl = some t ∧ now > e.timestamp + t)
    ∧ (MemoryCache.is_expired e now = true →
        MemoryCache.get c key now = (c.delete key, PyVal.none)
        ∧ MemoryCache.exists c key now = (c.delete key, false))
    ∧ (MemoryCache.is_expired e now = false →
        MemoryCache.get c key now
          = ({ c with entries := (updateEntry c.entries key { e with access := now }) },
             e.value)
        ∧ MemoryCache.exists c key now = (c, true))
    ∧ (∀ t, e.ttl = some t → now = e.timestamp + t →
        MemoryCache.get c key now
          = ({ c with entries := (updateEntry c.entries key { e with access := now }) },
             e.value)) := by
  refine ⟨?_, ?_, ?_, ?_⟩
  · unfold MemoryCache.is_expired
    cases ht : e.ttl with
    | none => simp
    | some t => simp
  · intro hx
    exact ⟨by simp [MemoryCache.get, hlook, hx],
           by simp [MemoryCache.exists, hlook, hx]⟩
  · intro hx
    exact ⟨by simp [MemoryCache.get, hlook, hx],
           by simp [MemoryCache.exists, hlook, hx]⟩
  · intro t ht hb
    have hx : MemoryCache.is_expired e now = false := by
      unfold MemoryCache.is_expired
      rw [ht]
      simp
      omega
    simp [MemoryCache.get, hlook, hx]

/-- C3 counterexample: an entry stored at instant 0 with ttl 10 is still
returned by `get` and reported by `exists` at the exact boundary instant
10 — the claim demands that it already be treated as absent there (it
asserts liveness `now < storedAt + ttl`, the code implements
`now ≤ storedAt + ttl`). -/
theorem expiry_boundary_cex :
    (((mkMemoryCache 1000 3600).setD "k" (PyVal.pyint 7) (some 10) 0).get "k" 10).2
      = PyVal.pyint 7
    ∧ (((mkMemoryCache 1000 3600).setD "k" (PyVal.pyint 7) (some 10) 0).exists "k" 10).2
      = true
    ∧ PyVal.pyint 7 ≠ PyVal.none := by
  refine ⟨by decide, by decide, by decide⟩

/-- C3 witness: the amended expiry characterization applied to a concrete
cache holding one entry stored at 0 with ttl 10: expired at instant 11
(deleted and absent), live at the boundary instant 10. -/
theorem expiry_reaping_witness :
    (lookupEntry ((mkMemoryCache 1000 3600).setD "k" (PyVal.pyint 7) (some 10) 0).entries "k"
      = some { value := PyVal.pyint 7, timestamp := 0, ttl := some 10, access := 0 })
    ∧ (MemoryCache.is_expired
        { value := PyVal.pyint 7, timestamp := 0, ttl := some 10, access := 0 } 11 = true ↔
        ∃ t, (some 10 : Option Int) = some t ∧ (11 : Int) > 0 + t)
    ∧ (((mkMemoryCache 1000 3600).setD "k" (PyVal.pyint 7) (some 10) 0).get "k" 11
        = (((mkMemoryCache 1000 3600).setD "k" (PyVal.pyint 7) (some 10) 0).delete "k",
           PyVal.none)) := by
  have h := expiry_reaping
    ((mkMemoryCache 1000 3600).setD "k" (PyVal.pyint 7) (some 10) 0) "k" 11
    { value := PyVal.pyint 7, timestamp := 0, ttl := some 10, access := 0 }
    (by decide)
  exact ⟨by decide, h.1, (h.2.1 (by decide)).1⟩

theorem minAccessKey_mem : ∀ (l : List (String × CEntry)) (k : String) (a : Int),
    minAccessKey l = some (k, a) → k ∈ l.map Prod.fst := by
  intro l
  induction l with
  | nil => intro k a h; simp [minAccessKey] at h
  | cons p rest ih =>
    intro k a h
    obtain ⟨k0, e0⟩ := p
    simp only [minAccessKey] at h
    cases hr : minAccessKey rest with
    | none =>
      rw [hr] at h
      simp at h
      simp [h.1]
    | some q =>
      obtain ⟨k2, a2⟩ := q
      rw [hr] at h
      dsimp only at h
      by_cases hle : e0.access ≤ a2
      · rw [if_pos hle] at h
        simp at h
        simp [h.1]
      · rw [if_neg hle] at h
        simp at h
        have := ih k2 a2 hr
        simp only [List.map_cons, List.mem_cons]
        right
        rw [← h.1]
        exact this

theorem removeEntry_length_mem : ∀ (l : List (String × CEntry)) (k : String),
    k ∈ l.map Prod.fst → (removeEntry l k).length + 1 = l.length := by
  intro l
  induction l with
  | nil => intro k h; simp at h
  | cons p rest ih =>
    intro k h
    obtain ⟨k0, e0⟩ := p
    by_cases h0 : k0 = k
    · simp [removeEntry, h0]
    · simp only [List.map_cons, List.mem_cons] at h
      rcases h with h | h
      · exact absurd h.symm h0
      · simp [removeEntry, h0, ih k h]

theorem updateEntry_length_le : ∀ (l : List (String × CEntry)) (k : String) (e : CEntry),
    (updateEntry l k e).length ≤ l.length + 1 := by
  intro l
  induction l with
  | nil => intro k e; simp [updateEntry]
  | cons p rest ih =>
    intro k e
    obtain ⟨k0, e0⟩ := p
    by_cases h0 : k0 = k
    · simp [updateEntry, h0]
    · simp only [updateEntry, if_neg h0, List.length_cons]
      have := ih k e
      omega

/-- C2 (amended): `set` evicts exactly when the cache already holds
`max_size` or more entries before the insert — also when the key being set
is already present, which the claim excludes — and then evicts exactly the
entry whose access time is smallest (first bound on ties); starting from a
state satisfying the bound, the size after a successful `set` stays at
most `max_size`; inserting K1..K4 in order into a fresh cache of capacity
3 leaves size 3 with K1 evicted and K2, K3, K4 present. -/
theorem memory_eviction (c : MemoryCache) (key : String) (value : PyVal)
    (ttl : Option Int) (now : Int) :
    (c.entries.length < c.max_size →
      MemoryCache.set c key value ttl now
        = some { c with entries := (updateEntry c.entries key
            { value := value, timestamp := now,
              ttl := some (pyOrTtl ttl c.default_ttl), access := now }) })
    ∧ (∀ k0 a0, c.entries.length ≥ c.max_size →
        minAccessKey c.entries = some (k0, a0) →
        MemoryCache.set c key value ttl now
          = some { c with entries := (updateEntry (removeEntry c.entries k0) key
              { value := value, timestamp := now,
                ttl := some (pyOrTtl ttl c.default_ttl), access := now }) })
    ∧ (∀ c2, c.entries.length ≤ c.max_size →
        MemoryCache.set c key value ttl now = some c2 →
        c2.entries.length ≤ c.max_size)
    ∧ ((((((mkMemoryCache 3 3600).setD "K1" (PyVal.pyint 1) Option.none 0).setD
          "K2" (PyVal.pyint 2) Option.none 1).setD
          "K3" (PyVal.pyint 3) Option.none 2).setD
          "K4" (PyVal.pyint 4) Option.none 3).size = 3
        ∧ ((((((mkMemoryCache 3 3600).setD "K1" (PyVal.pyint 1) Option.none 0).setD
            "K2" (PyVal.pyint 2) Option.none 1).setD
            "K3" (PyVal.pyint 3) Option.none 2).setD
            "K4" (PyVal.pyint 4) Option.none 3).exists "K1" 4).2 = false
        ∧ ((((((mkMemoryCache 3 3600).setD "K1" (PyVal.pyint 1) Option.none 0).setD
            "K2" (PyVal.pyint 2) Option.none 1).setD
            "K3" (PyVal.pyint 3) Option.none 2).setD
            "K4" (PyVal.pyint 4) Option.none 3).exists "K2" 4).2 = true
        ∧ ((((((mkMemoryCache 3 3600).setD "K1" (PyVal.pyint 1) Option.none 0).setD
            "K2" (PyVal.pyint 2) Option.none 1).setD
            "K3" (PyVal.pyint 3) Option.none 2).setD
            "K4" (PyVal.pyint 4) Option.none 3).exists "K3" 4).2 = true
        ∧ ((((((mkMemoryCache 3 3600).setD "K1" (PyVal.pyint 1) Option.none 0).setD
            "K2" (PyVal.pyint 2) Option.none 1).setD
            "K3" (PyVal.pyint 3) Option.none 2).setD
            "K4" (PyVal.pyint 4) Option.none 3).exists "K4" 4).2 = true) := by
  refine ⟨?_, ?_, ?_, by decide, by decide, by decide, by decide, by decide⟩
  · intro hroom
    have hlen : ¬ (c.entries.length ≥ c.max_size) := by omega
    simp [MemoryCache.set, MemoryCache.evict_if_needed, hlen]
  · intro k0 a0 hfull hmin
    simp [MemoryCache.set, MemoryCache.evict_if_needed, hfull, hmin,
      MemoryCache.delete]
  · intro c2 hinv hset
    by_cases hfull : c.entries.length ≥ c.max_size
    · simp only [MemoryCache.set, MemoryCache.evict_if_needed, if_pos hfull] at hset
      cases hm : minAccessKey c.entries with
      | none => rw [hm] at hset; simp at hset
      | some q =>
        obtain ⟨k0, a0⟩ := q
        rw [hm] at hset
        simp only [Option.some.injEq] at hset
        rw [← hset]
        have h1 := updateEntry_length_le
          (MemoryCache.delete c k0).entries key
          { value := value, timestamp := now,
            ttl := some (pyOrTtl ttl c.default_ttl), access := now }
        have h2 := removeEntry_length_mem c.entries k0 (minAccessKey_mem _ _ _ hm)
        simp only [MemoryCache.delete] at h1 ⊢
        omega
    · simp only [MemoryCache.set, MemoryCache.evict_if_needed, if_neg hfull,
        Option.some.injEq] at hset
      rw [← hset]
      have h1 := updateEntry_length_le c.entries key
        { value := value, timestamp := now,
          ttl := some (pyOrTtl ttl c.default_ttl), access := now }
      simp only []
      omega

/-- C2 counterexample: with `max_size = 2`, overwriting the already
present key K2 when the cache is full still evicts K1 (the source evicts
whenever `len(cache) >= max_size`, even though this insert would not
exceed the bound) — the claim asserts eviction happens exactly when the
insert would exceed `max_size`, which predicts K1 stays present. -/
theorem memory_eviction_cex :
    (((((mkMemoryCache 2 3600).setD "K1" (PyVal.pyint 1) Option.none 0).setD
        "K2" (PyVal.pyint 2) Option.none 1).setD
        "K2" (PyVal.pyint 5) Option.none 2).exists "K1" 3).2 = false
    ∧ ((((mkMemoryCache 2 3600).setD "K1" (PyVal.pyint 1) Option.none 0).setD
        "K2" (PyVal.pyint 2) Option.none 1).setD
        "K2" (PyVal.pyint 5) Option.none 2).size = 1 := by
  exact ⟨by decide, by decide⟩

/-- C2 witness: the amended eviction rule applied to a concrete full
cache of capacity 1: the single entry K1 (smallest access time) is evicted
before K2 is inserted. -/
theorem memory_eviction_witness :
    (((mkMemoryCache 1 3600).setD "K1" (PyVal.pyint 1) Option.none 0).entries.length
      ≥ ((mkMemoryCache 1 3600).setD "K1" (PyVal.pyint 1) Option.none 0).max_size)
    ∧ minAccessKey ((mkMemoryCache 1 3600).setD "K1" (PyVal.pyint 1) Option.none 0).entries
      = some ("K1", 0)
    ∧ MemoryCache.set ((mkMemoryCache 1 3600).setD "K1" (PyVal.pyint 1) Option.none 0)
        "K2" (PyVal.pyint 2) Option.none 1
      = some { ((mkMemoryCache 1 3600).setD "K1" (PyVal.pyint 1) Option.none 0) with
          entries := (updateEntry
            (removeEntry ((mkMemoryCache 1 3600).setD "K1" (PyVal.pyint 1) Option.none 0).entries "K1")
            "K2" { value := PyVal.pyint 2, timestamp := 1, ttl := some 3600, access := 1 }) } := by
  have h := (memory_eviction
    ((mkMemoryCache 1 3600).setD "K1" (PyVal.pyint 1) Option.none 0)
    "K2" (PyVal.pyint 2) Option.none 1).2.1 "K1" 0 (by decide) (by decide)
  exact ⟨by decide, by decide, h⟩

/-- C5 (amended): the per-computation-kind decorators of the cache package
(`cache/decorators.py`) degrade gracefully: with the registry
uninitialized, a call of the wrapped function catches the `RuntimeError`,
executes the function directly exactly once and returns its result.  The
duplicate decorators of the monolithic `cache.py` do not: there,
decoration itself calls `get_cache_manager()` outside any `try` and raises
(see the counterexample). -/
theorem decorators_graceful_degradation {σ : Type} (ttl : Option Int)
    (hash : String → String) (func : σ → PyArgs → σ × PyVal)
    (s : σ) (args : PyArgs) (now : Int) :
    decorators_cached_klein_bottle ttl hash func Option.none s args now
      = (Option.none, (func s args).1, (func s args).2)
    ∧ decorators_cached_mobius_strip ttl hash func Option.none s args now
      = (Option.none, (func s args).1, (func s args).2)
    ∧ decorators_cached_torus ttl hash func Option.none s args now
      = (Option.none, (func s args).1, (func s args).2)
    ∧ decorators_cached_topology ttl hash func Option.none s args now
      = (Option.none, (func s args).1, (func s args).2) :=
  ⟨rfl, rfl, rfl, rfl⟩

/-- C5 counterexample: applying any of the four monolithic `cache.py`
convenience decorators with the registry uninitialized raises the
`RuntimeError` of `get_cache_manager` at decoration time instead of
producing a wrapper that runs the function uncached. -/
theorem cachePy_decorators_raise_cex :
    cachePy_cached_klein_bottle Option.none Option.none
      = Except.error "Cache manager not initialized. Call initialize_cache() first."
    ∧ cachePy_cached_mobius_strip Option.none Option.none
      = Except.error "Cache manager not initialized. Call initialize_cache() first."
    ∧ cachePy_cached_torus Option.none Option.none
      = Except.error "Cache manager not initialized. Call initialize_cache() first."
    ∧ cachePy_cached_topology Option.none Option.none
      = Except.error "Cache manager not initialized. Call initialize_cache() first." :=
  ⟨rfl, rfl, rfl, rfl⟩

/-- C6 (amended): key encoding never fails.  An argument of an
unsupported type is serialized through the `default=str` fallback as the
JSON string of its `str()` text, a key is produced for it, and the caller
caches the call under that key exactly as for any other argument: a second
identical call is a hit and does not re-execute the function. -/
theorem unencodable_fallback (hash : String → String) (key_pfx : String)
    (s : String) (rest : PyList) (kwargs : PyDict) (ttl : Option Int)
    (f : PyArgs → PyVal) (m : CacheManager) (t0 t1 : Int)
    (hempty : m.backend.entries = [])
    (hmax : 1 ≤ m.backend.max_size)
    (hres : f ((PyList.cons (PyVal.obj s) rest, kwargs) : PyArgs) ≠ PyVal.none)
    (hwin : t1 ≤ t0 + pyOrTtl ttl m.backend.default_ttl) :
    generate_key hash key_pfx (PyList.cons (PyVal.obj s) rest) kwargs
      = key_pfx ++ ":" ++ hash (cache_string (PyList.cons (PyVal.obj s) rest) kwargs)
    ∧ canon (PyVal.obj s) = JVal.jstr s
    ∧ ((cachedCallSeq key_pfx ttl true hash (countingFn f)
        (((t0 :: [t1]).map fun t =>
          (t, ((PyList.cons (PyVal.obj s) rest, kwargs) : PyArgs)))) m 0).2.1 = 1) := by
  refine ⟨rfl, rfl, ?_⟩
  exact (cachedCallSeq_memoizes hash key_pfx ttl f
    ((PyList.cons (PyVal.obj s) rest, kwargs) : PyArgs) m t0 [t1]
    hempty hmax hres (by intro t ht; simp at ht; omega)).1

/-- C6 counterexample: with an argument of an unsupported type (an object
whose `str()` is "<SKB object>"), `generate_key` does not fail — the claim
demands an `UnencodableArgument` error and uncached execution, but the
call is cached: of two identical calls only the first executes the
function, and both return the cached result. -/
theorem unencodable_cex :
    (cachedCallSeq "topology" Option.none true id
      (countingFn (fun _ => PyVal.pyint 42))
      [(0, (PyList.cons (PyVal.obj "<SKB object>") PyList.nil, PyDict.nil)),
       (1, (PyList.cons (PyVal.obj "<SKB object>") PyList.nil, PyDict.nil))]
      (mkCacheManager (mkMemoryCache 1000 3600)) 0).2.1 = 1
    ∧ (cachedCallSeq "topology" Option.none true id
      (countingFn (fun _ => PyVal.pyint 42))
      [(0, (PyList.cons (PyVal.obj "<SKB object>") PyList.nil, PyDict.nil)),
       (1, (PyList.cons (PyVal.obj "<SKB object>") PyList.nil, PyDict.nil))]
      (mkCacheManager (mkMemoryCache 1000 3600)) 0).2.2
      = [PyVal.pyint 42, PyVal.pyint 42] := by
  exact ⟨by decide, by decide⟩

/-- C6 witness: the amended fallback behaviour at a concrete unsupported
argument. -/
theorem unencodable_fallback_witness :
    ((mkCacheManager (mkMemoryCache 1000 3600)).backend.entries = []
     ∧ 1 ≤ (mkCacheManager (mkMemoryCache 1000 3600)).backend.max_size
     ∧ (fun (_ : PyArgs) => PyVal.pyint 42)
         ((PyList.cons (PyVal.obj "<SKB object>") PyList.nil, PyDict.nil) : PyArgs)
         ≠ PyVal.none
     ∧ (1 : Int) ≤ 0 + pyOrTtl Option.none
         (mkCacheManager (mkMemoryCache 1000 3600)).backend.default_ttl)
    ∧ generate_key id "topology" (PyList.cons (PyVal.obj "<SKB object>") PyList.nil)
        PyDict.nil
      = "topology" ++ ":" ++ id (cache_string
          (PyList.cons (PyVal.obj "<SKB object>") PyList.nil) PyDict.nil)
    ∧ canon (PyVal.obj "<SKB object>") = JVal.jstr "<SKB object>"
    ∧ ((cachedCallSeq "topology" Option.none true id
        (countingFn (fun _ => PyVal.pyint 42))
        ((((0 : Int) :: [1]).map fun t =>
          (t, ((PyList.cons (PyVal.obj "<SKB object>") PyList.nil, PyDict.nil) : PyArgs))))
        (mkCacheManager (mkMemoryCache 1000 3600)) 0).2.1 = 1) := by
  have h := unencodable_fallback id "topology" "<SKB object>" PyList.nil PyDict.nil
    Option.none (fun _ => PyVal.pyint 42)
    (mkCacheManager (mkMemoryCache 1000 3600)) 0 1
    rfl (by decide) (by decide) (by decide)
  exact ⟨⟨rfl, by decide, by decide, by decide⟩, h.1, h.2.1, h.2.2⟩

/-- C4: key determinism and distinctness.  For supported argument shapes:
generating a key twice for the same arguments gives the same key;
canonically equal arguments (same serialized JSON tree) give the same key;
canonically distinct arguments give distinct keys — the serialized
canonical strings are provably distinct, and the model treats the
fixed-length digest as injective (the spec asks collision-avoidance, not
collision-proofness, of the real MD5); the key is invariant under
permutation of mapping fields with distinct keys; and a numpy array
argument keys identically to the nested list of its elements (contents,
not identity). -/
theorem generate_key_deterministic_distinct (hash : String → String)
    (hinj : Function.Injective hash) (key_pfx : String)
    (a1 : PyList) (k1 : PyDict) (a2 : PyList) (k2 : PyDict)
    (_h1 : supportedArgs a1 k1 = true) (_h2 : supportedArgs a2 k2 = true) :
    generate_key hash key_pfx a1 k1 = generate_key hash key_pfx a1 k1
    ∧ (canonicallyEqual a1 k1 a2 k2 →
        generate_key hash key_pfx a1 k1 = generate_key hash key_pfx a2 k2)
    ∧ (¬ canonicallyEqual a1 k1 a2 k2 →
        generate_key hash key_pfx a1 k1 ≠ generate_key hash key_pfx a2 k2)
    ∧ (∀ fs1 fs2 : List (String × PyVal), List.Perm fs1 fs2 →
        (fs1.map Prod.fst).Nodup →
        generate_key hash key_pfx
          (PyList.cons (PyVal.pydict (PyDict.ofList fs1)) PyList.nil) PyDict.nil
        = generate_key hash key_pfx
          (PyList.cons (PyVal.pydict (PyDict.ofList fs2)) PyList.nil) PyDict.nil)
    ∧ (∀ (xs rest : PyList) (kw : PyDict),
        generate_key hash key_pfx (PyList.cons (PyVal.ndarray xs) rest) kw
        = generate_key hash key_pfx (PyList.cons (PyVal.pylist xs) rest) kw) := by
  refine ⟨rfl, ?_, ?_, ?_, ?_⟩
  · intro h
    exact generate_key_congr h
  · intro hne heq
    exact hne (generate_key_inj hinj heq)
  · intro fs1 fs2 hp hnd
    apply generate_key_congr
    have hkeys : ((fs1.map (fun p => (p.1, canon p.2))).map Prod.fst).Nodup := by
      rw [List.map_map]
      exact hnd
    have hinner : sortPairs (canonPairs (PyDict.ofList fs1))
        = sortPairs (canonPairs (PyDict.ofList fs2)) := by
      rw [canonPairs_ofList, canonPairs_ofList,
        sortPairs_perm_eq (hp.map (fun p => (p.1, canon p.2))) hkeys]
    show canonKey (PyList.cons (PyVal.pydict (PyDict.ofList fs1)) PyList.nil) PyDict.nil
      = canonKey (PyList.cons (PyVal.pydict (PyDict.ofList fs2)) PyList.nil) PyDict.nil
    simp only [canonKey, cacheKeyVal, tolistifyList, tolistify, tolistifyDict,
      canon, canonList, canonPairs, hinner]
  · intro xs rest kw
    rfl

/-- C4 witness: with the identity digest, two canonically distinct
supported argument lists get distinct keys. -/
theorem generate_key_witness :
    (Function.Injective (id : String → String)
     ∧ supportedArgs (PyList.cons (PyVal.pyint 1) PyList.nil) PyDict.nil = true
     ∧ supportedArgs (PyList.cons (PyVal.pyint 2) PyList.nil) PyDict.nil = true
     ∧ ¬ canonicallyEqual (PyList.cons (PyVal.pyint 1) PyList.nil) PyDict.nil
         (PyList.cons (PyVal.pyint 2) PyList.nil) PyDict.nil)
    ∧ generate_key id "torus" (PyList.cons (PyVal.pyint 1) PyList.nil) PyDict.nil
      ≠ generate_key id "torus" (PyList.cons (PyVal.pyint 2) PyList.nil) PyDict.nil :=
  ⟨⟨fun _ _ h => h, by decide, by decide, by decide⟩,
   (generate_key_deterministic_distinct id (fun _ _ h => h) "torus"
     (PyList.cons (PyVal.pyint 1) PyList.nil) PyDict.nil
     (PyList.cons (PyVal.pyint 2) PyList.nil) PyDict.nil
     (by decide) (by decide)).2.2.1 (by decide)⟩

/-! ## Counting hits and misses over a call sequence -/

/-- A wrapped call with caching on, no entry under the call's key, and a
backend with room: a cache miss that stores the computed result. -/
theorem cachedComputation_miss {σ : Type} (m : CacheManager) (key_pfx : String)
    (ttl : Option Int) (hash : String → String) (func : σ → PyArgs → σ × PyVal)
    (s : σ) (args : PyArgs) (now : Int)
    (hnone : lookupEntry m.backend.entries
      (generate_key hash key_pfx args.1 args.2) = Option.none)
    (hroom : m.backend.entries.length < m.backend.max_size) :
    cachedComputation m key_pfx ttl true hash func s args now =
      ({ m with
          backend := { m.backend with entries :=
            (updateEntry m.backend.entries (generate_key hash key_pfx args.1 args.2)
              { value := (func s args).2, timestamp := now,
                ttl := some (pyOrTtl ttl m.backend.default_ttl), access := now }) },
          miss_count := m.miss_count + 1,
          total_requests := m.total_requests + 1 }, (func s args).1, (func s args).2) := by
  have hlen : ¬ (m.backend.entries.length ≥ m.backend.max_size) := by omega
  simp [cachedComputation, MemoryCache.get, MemoryCache.set,
    MemoryCache.evict_if_needed, hnone, hlen]

def keyOfArgs (hash : String → String) (key_pfx : String) (a : PyArgs) : String :=
  generate_key hash key_pfx a.1 a.2

/-- The number of fresh distinct keys a call sequence contributes beyond
an already-seen key set. -/
def newKeys (keyf : PyArgs → String) : List PyArgs → Finset String → Nat
  | [], _ => 0
  | a :: rest, S =>
    if keyf a ∈ S then newKeys keyf rest S
    else 1 + newKeys keyf rest (insert (keyf a) S)

theorem newKeys_le_length (keyf : PyArgs → String) :
    ∀ (q : List PyArgs) (S : Finset String), newKeys keyf q S ≤ q.length := by
  intro q
  induction q with
  | nil => intro S; simp [newKeys]
  | cons a rest ih =>
    intro S
    by_cases h : keyf a ∈ S
    · simp only [newKeys, if_pos h, List.length_cons]
      have := ih S
      omega
    · simp only [newKeys, if_neg h, List.length_cons]
      have := ih (insert (keyf a) S)
      omega

theorem newKeys_sdiff (keyf : PyArgs → String) :
    ∀ (q : List PyArgs) (S : Finset String),
    newKeys keyf q S = (((q.map keyf).toFinset) \ S).card := by
  intro q
  induction q with
  | nil => intro S; simp [newKeys]
  | cons a rest ih =>
    intro S
    by_cases h : keyf a ∈ S
    · have hset : (((a :: rest).map keyf).toFinset) \ S
          = ((rest.map keyf).toFinset) \ S := by
        ext x
        simp only [List.map_cons, List.toFinset_cons, Finset.mem_sdiff,
          Finset.mem_insert]
        constructor
        · rintro ⟨hx | hx, hxs⟩
          · exact absurd (hx ▸ h) hxs
          · exact ⟨hx, hxs⟩
        · rintro ⟨hx, hxs⟩
          exact ⟨Or.inr hx, hxs⟩
      rw [newKeys, if_pos h, ih S, hset]
    · have hset : (((a :: rest).map keyf).toFinset) \ S
          = insert (keyf a) (((rest.map keyf).toFinset) \ (insert (keyf a) S)) := by
        ext x
        simp only [List.map_cons, List.toFinset_cons, Finset.mem_sdiff,
          Finset.mem_insert, not_or]
        constructor
        · rintro ⟨hx | hx, hxs⟩
          · exact Or.inl hx
          · by_cases hxa : x = keyf a
            · exact Or.inl hxa
            · exact Or.inr ⟨hx, hxa, hxs⟩
        · rintro (hx | ⟨hx, hxa, hxs⟩)
          · exact ⟨Or.inl hx, hx ▸ h⟩
          · exact ⟨Or.inr hx, hxs⟩
      rw [newKeys, if_neg h, ih (insert (keyf a) S), hset,
        Finset.card_insert_of_not_mem (by simp)]
      omega

/-- Counter bookkeeping over a sequence of cached calls at one instant:
starting from a backend whose entries are exactly the live, non-`None`
entries for a key set `S`, the misses of the sequence are exactly its
fresh distinct keys and every call is either a hit or a miss. -/
theorem cachedCallSeq_stats (hash : String → String) (key_pfx : String)
    (ttl : Option Int) (f : PyArgs → PyVal) (now : Int) (T : Int) :
    ∀ (q : List PyArgs) (m : CacheManager) (S : Finset String) (n : Nat),
    pyOrTtl ttl m.backend.default_ttl = T →
    0 ≤ T →
    (∀ a ∈ q, f a ≠ PyVal.none) →
    (∀ k, k ∈ S ↔ (lookupEntry m.backend.entries k).isSome = true) →
    (∀ k e, lookupEntry m.backend.entries k = some e →
      e.value ≠ PyVal.none ∧ e.timestamp = now ∧ e.ttl = some T) →
    m.backend.entries.length = S.card →
    S.card + newKeys (keyOfArgs hash key_pfx) q S ≤ m.backend.max_size →
    ((cachedCallSeq key_pfx ttl true hash (countingFn f)
        (q.map fun a => (now, a)) m n).1.total_requests
       = m.total_requests + q.length
     ∧ (cachedCallSeq key_pfx ttl true hash (countingFn f)
        (q.map fun a => (now, a)) m n).1.miss_count
       = m.miss_count + newKeys (keyOfArgs hash key_pfx) q S
     ∧ (cachedCallSeq key_pfx ttl true hash (countingFn f)
        (q.map fun a => (now, a)) m n).1.hit_count
          + newKeys (keyOfArgs hash key_pfx) q S
       = m.hit_count + q.length) := by
  intro q
  induction q with
  | nil =>
    intro m S n _ _ _ _ _ _ _
    simp [cachedCallSeq, newKeys]
  | cons a rest ih =>
    intro m S n hT hT0 hres hS hent hlen hbound
    by_cases hmem : keyOfArgs hash key_pfx a ∈ S
    · -- the key is cached: this call is a hit
      have hsome : (lookupEntry m.backend.entries (keyOfArgs hash key_pfx a)).isSome
          = true := (hS _).mp hmem
      obtain ⟨e, he⟩ := Option.isSome_iff_exists.mp hsome
      obtain ⟨hv, hts, httl⟩ := hent _ e he
      have hlive : MemoryCache.is_expired e now = false := by
        unfold MemoryCache.is_expired
        rw [httl, hts]
        simp only [decide_eq_false_iff_not, not_lt]
        omega
      have hstep := cachedComputation_hit m key_pfx ttl hash (countingFn f)
        n a now e he hlive hv
      have hnk : newKeys (keyOfArgs hash key_pfx) (a :: rest) S
          = newKeys (keyOfArgs hash key_pfx) rest S := by
        rw [newKeys, if_pos hmem]
      have ihres := ih
        ({ m with
            backend := { m.backend with entries :=
              (updateEntry m.backend.entries
                (generate_key hash key_pfx a.1 a.2) { e with access := now }) },
            hit_count := m.hit_count + 1,
            total_requests := m.total_requests + 1 }) S n
        (by simpa using hT) hT0
        (fun b hb => hres b (by simp [hb]))
        (by
          intro k
          simp only []
          rw [lookupEntry_update]
          by_cases hk : generate_key hash key_pfx a.1 a.2 = k
          · rw [if_pos hk]
            simp only [Option.isSome_some, iff_true]
            rw [← hk]
            exact hmem
          · rw [if_neg hk]
            exact hS k)
        (by
          intro k e2 hk2
          simp only [] at hk2
          rw [lookupEntry_update] at hk2
          by_cases hk : generate_key hash key_pfx a.1 a.2 = k
          · rw [if_pos hk] at hk2
            obtain rfl := Option.some_inj.mp hk2
            exact ⟨hv, hts, httl⟩
          · rw [if_neg hk] at hk2
            exact hent k e2 hk2)
        (by
          simp only []
          have he2 : lookupEntry m.backend.entries
              (generate_key hash key_pfx a.1 a.2) = some e := he
          rw [updateEntry_length_mem m.backend.entries _ _ e he2]
          exact hlen)
        (by simpa [hnk] using hbound)
      obtain ⟨i1, i2, i3⟩ := ihres
      simp only [List.map, cachedCallSeq, hstep]
      refine ⟨?_, ?_, ?_⟩
      · rw [i1]; simp; omega
      · rw [i2, hnk]
      · rw [hnk]
        rw [i3]
        simp
        omega
    · -- the key is fresh: this call is a miss that stores the result
      have hnone : lookupEntry m.backend.entries (keyOfArgs hash key_pfx a)
          = Option.none := by
        cases hl : lookupEntry m.backend.entries (keyOfArgs hash key_pfx a) with
        | none => rfl
        | some e =>
          exact absurd ((hS _).mpr (by rw [hl]; rfl)) hmem
      have hnk : newKeys (keyOfArgs hash key_pfx) (a :: rest) S
          = 1 + newKeys (keyOfArgs hash key_pfx) rest
              (insert (keyOfArgs hash key_pfx a) S) := by
        rw [newKeys, if_neg hmem]
      have hroom : m.backend.entries.length < m.backend.max_size := by
        rw [hlen]
        rw [hnk] at hbound
        omega
      have hstep := cachedComputation_miss m key_pfx ttl hash (countingFn f)
        n a now hnone hroom
      have hfa : f a ≠ PyVal.none := hres a (by simp)
      have ihres := ih
        ({ m with
            backend := { m.backend with entries :=
              (updateEntry m.backend.entries (generate_key hash key_pfx a.1 a.2)
                { value := f a, timestamp := now,
                  ttl := some (pyOrTtl ttl m.backend.default_ttl), access := now }) },
            miss_count := m.miss_count + 1,
            total_requests := m.total_requests + 1 })
        (insert (keyOfArgs hash key_pfx a) S) (n + 1)
        (by simpa using hT) hT0
        (fun b hb => hres b (by simp [hb]))
        (by
          intro k
          simp only []
          rw [lookupEntry_update]
          by_cases hk : generate_key hash key_pfx a.1 a.2 = k
          · rw [if_pos hk]
            simp only [Option.isSome_some, iff_true, Finset.mem_insert]
            exact Or.inl hk.symm
          · rw [if_neg hk]
            rw [Finset.mem_insert]
            constructor
            · rintro (h2 | h2)
              · exact absurd h2.symm hk
              · exact (hS k).mp h2
            · intro h2
              exact Or.inr ((hS k).mpr h2))
        (by
          intro k e2 hk2
          simp only [] at hk2
          rw [lookupEntry_update] at hk2
          by_cases hk : generate_key hash key_pfx a.1 a.2 = k
          · rw [if_pos hk] at hk2
            obtain rfl := Option.some_inj.mp hk2
            refine ⟨hfa, rfl, ?_⟩
            rw [hT]
          · rw [if_neg hk] at hk2
            exact hent k e2 hk2)
        (by
          simp only []
          have hnone2 : lookupEntry m.backend.entries
              (generate_key hash key_pfx a.1 a.2) = Option.none := hnone
          rw [updateEntry_length_new m.backend.entries _ _ hnone2, hlen,
            Finset.card_insert_of_not_mem hmem])
        (by
          simp only []
          rw [Finset.card_insert_of_not_mem hmem]
          rw [hnk] at hbound
          omega)
      obtain ⟨i1, i2, i3⟩ := ihres
      simp only [List.map, cachedCallSeq, hstep, countingFn]
      refine ⟨?_, ?_, ?_⟩
      · rw [i1]; simp; omega
      · rw [i2, hnk]
        simp
        omega
      · rw [hnk]
        simp at i3 ⊢
        omega

/-- C8 (amended): stats correctness.  For a memoized pure function whose
results are never Python `None`, after N cached-path calls with M distinct
argument sets (distinct argument sets generating distinct keys, no
evictions — M within capacity — and no expirations — a nonnegative
resolved ttl, all calls at one instant) on a fresh manager:
`hits + misses = N`, `misses = M`, `hits = N - M`, `total_requests = N`;
`get_stats` is a pure read reporting exactly these counters with
`hit_rate = hits / total_requests` and `hit_rate = 0` when
`total_requests = 0`.  The non-`None` restriction is forced by the source
(a stored `None` is indistinguishable from a miss; see the
counterexample). -/
theorem stats_correctness (hash : String → String) (key_pfx : String)
    (ttl : Option Int) (f : PyArgs → PyVal) (as : List PyArgs)
    (now : Int) (maxsz : Nat) (dtl : Int)
    (hT0 : 0 ≤ pyOrTtl ttl dtl)
    (hres : ∀ a ∈ as, f a ≠ PyVal.none)
    (hkinj : ∀ a ∈ as, ∀ b ∈ as,
      keyOfArgs hash key_pfx a = keyOfArgs hash key_pfx b → a = b)
    (hM : as.toFinset.card ≤ maxsz) :
    ((cachedCallSeq key_pfx ttl true hash (countingFn f)
        (as.map fun a => (now, a))
        (mkCacheManager (mkMemoryCache maxsz dtl)) 0).1.hit_count
      + (cachedCallSeq key_pfx ttl true hash (countingFn f)
        (as.map fun a => (now, a))
        (mkCacheManager (mkMemoryCache maxsz dtl)) 0).1.miss_count = as.length)
    ∧ ((cachedCallSeq key_pfx ttl true hash (countingFn f)
        (as.map fun a => (now, a))
        (mkCacheManager (mkMemoryCache maxsz dtl)) 0).1.miss_count
      = as.toFinset.card)
    ∧ ((cachedCallSeq key_pfx ttl true hash (countingFn f)
        (as.map fun a => (now, a))
        (mkCacheManager (mkMemoryCache maxsz dtl)) 0).1.hit_count
      = as.length - as.toFinset.card)
    ∧ ((cachedCallSeq key_pfx ttl true hash (countingFn f)
        (as.map fun a => (now, a))
        (mkCacheManager (mkMemoryCache maxsz dtl)) 0).1.total_requests = as.length)
    ∧ (∀ m : CacheManager, m.get_stats =
        { total_requests := m.total_requests, hits := m.hit_count,
          misses := m.miss_count,
          hit_rate := if m.total_requests = 0 then 0
            else (m.hit_count : Rat) / (m.total_requests : Rat) }) := by
  have hinj2 : Set.InjOn (keyOfArgs hash key_pfx) (as.toFinset : Set PyArgs) := by
    intro x hx y hy hxy
    exact hkinj x (List.mem_toFinset.mp hx) y (List.mem_toFinset.mp hy) hxy
  have hcard : (as.map (keyOfArgs hash key_pfx)).toFinset.card = as.toFinset.card := by
    have himg : (as.map (keyOfArgs hash key_pfx)).toFinset
        = as.toFinset.image (keyOfArgs hash key_pfx) := by
      ext x
      simp [List.mem_toFinset, List.mem_map, Finset.mem_image]
    rw [himg]
    exact Finset.card_image_of_injOn hinj2
  have hnk : newKeys (keyOfArgs hash key_pfx) as ∅ = as.toFinset.card := by
    rw [newKeys_sdiff]
    simp [hcard]
  have hstats := cachedCallSeq_stats hash key_pfx ttl f now (pyOrTtl ttl dtl)
    as (mkCacheManager (mkMemoryCache maxsz dtl)) ∅ 0
    rfl hT0 hres
    (by intro k; simp [mkCacheManager, mkMemoryCache, lookupEntry])
    (by intro k e hk; simp [mkCacheManager, mkMemoryCache, lookupEntry] at hk)
    (by simp [mkCacheManager, mkMemoryCache])
    (by simp [mkCacheManager, mkMemoryCache, hnk, hM])
  obtain ⟨i1, i2, i3⟩ := hstats
  rw [hnk] at i2 i3
  have hz1 : (mkCacheManager (mkMemoryCache maxsz dtl)).total_requests = 0 := rfl
  have hz2 : (mkCacheManager (mkMemoryCache maxsz dtl)).hit_count = 0 := rfl
  have hz3 : (mkCacheManager (mkMemoryCache maxsz dtl)).miss_count = 0 := rfl
  have hle : as.toFinset.card ≤ as.length := by
    rw [← hnk]
    exact newKeys_le_length (keyOfArgs hash key_pfx) as ∅
  refine ⟨by omega, by omega, by omega, by omega, fun m => rfl⟩

/-- C8 counterexample: a pure `None`-returning function breaks the stats
law: 3 cached-path calls with 1 distinct argument set give
`misses = 3 ≠ 1 = M` (every call is a miss because the stored `None` looks
like absence). -/
theorem stats_correctness_cex :
    (cachedCallSeq "p" Option.none true id (countingFn (fun _ => PyVal.none))
      [(0, (PyList.cons (PyVal.pyint 3) PyList.nil, PyDict.nil)),
       (0, (PyList.cons (PyVal.pyint 3) PyList.nil, PyDict.nil)),
       (0, (PyList.cons (PyVal.pyint 3) PyList.nil, PyDict.nil))]
      (mkCacheManager (mkMemoryCache 1000 3600)) 0).1.miss_count = 3
    ∧ ([((PyList.cons (PyVal.pyint 3) PyList.nil, PyDict.nil) : PyArgs),
        (PyList.cons (PyVal.pyint 3) PyList.nil, PyDict.nil),
        (PyList.cons (PyVal.pyint 3) PyList.nil, PyDict.nil)] : List PyArgs).toFinset.card = 1
    ∧ (3 : Nat) ≠ 1 := by
  refine ⟨by decide, by decide, by decide⟩

/-- C8 witness: 3 calls with 2 distinct argument sets on a fresh manager:
1 hit, 2 misses, 3 total requests. -/
theorem stats_correctness_witness :
    ((0 : Int) ≤ pyOrTtl Option.none 3600
     ∧ (∀ a ∈ [((PyList.cons (PyVal.pyint 1) PyList.nil, PyDict.nil) : PyArgs),
          (PyList.cons (PyVal.pyint 1) PyList.nil, PyDict.nil),
          (PyList.cons (PyVal.pyint 2) PyList.nil, PyDict.nil)],
        (fun (_ : PyArgs) => PyVal.pyint 9) a ≠ PyVal.none)
     ∧ (∀ a ∈ [((PyList.cons (PyVal.pyint 1) PyList.nil, PyDict.nil) : PyArgs),
          (PyList.cons (PyVal.pyint 1) PyList.nil, PyDict.nil),
          (PyList.cons (PyVal.pyint 2) PyList.nil, PyDict.nil)],
        ∀ b ∈ [((PyList.cons (PyVal.pyint 1) PyList.nil, PyDict.nil) : PyArgs),
          (PyList.cons (PyVal.pyint 1) PyList.nil, PyDict.nil),
          (PyList.cons (PyVal.pyint 2) PyList.nil, PyDict.nil)],
        keyOfArgs id "torus" a = keyOfArgs id "torus" b → a = b)
     ∧ ([((PyList.cons (PyVal.pyint 1) PyList.nil, PyDict.nil) : PyArgs),
          (PyList.cons (PyVal.pyint 1) PyList.nil, PyDict.nil),
          (PyList.cons (PyVal.pyint 2) PyList.nil, PyDict.nil)] : List PyArgs).toFinset.card ≤ 1000)
    ∧ ((cachedCallSeq "torus" Option.none true id
        (countingFn (fun _ => PyVal.pyint 9))
        (([((PyList.cons (PyVal.pyint 1) PyList.nil, PyDict.nil) : PyArgs),
          (PyList.cons (PyVal.pyint 1) PyList.nil, PyDict.nil),
          (PyList.cons (PyVal.pyint 2) PyList.nil, PyDict.nil)]).map fun a => ((0 : Int), a))
        (mkCacheManager (mkMemoryCache 1000 3600)) 0).1.miss_count
      = ([((PyList.cons (PyVal.pyint 1) PyList.nil, PyDict.nil) : PyArgs),
          (PyList.cons (PyVal.pyint 1) PyList.nil, PyDict.nil),
          (PyList.cons (PyVal.pyint 2) PyList.nil, PyDict.nil)] : List PyArgs).toFinset.card) := by
  have h := stats_correctness id "torus" Option.none (fun _ => PyVal.pyint 9)
    [((PyList.cons (PyVal.pyint 1) PyList.nil, PyDict.nil) : PyArgs),
     (PyList.cons (PyVal.pyint 1) PyList.nil, PyDict.nil),
     (PyList.cons (PyVal.pyint 2) PyList.nil, PyDict.nil)]
    0 1000 3600 (by decide) (by decide) (by decide) (by decide)
  exact ⟨⟨by decide, by decide, by decide, by decide⟩, h.2.1⟩
